import Mathlib

/-!
Verification of the praxisvoice repository (voice/text tutoring assistant).

This file gives a shallow embedding, in Lean 4, of the string heuristics,
the scope resolver, the WebSocket message handlers and the client logic of
the repository, and proves or refutes the frozen claims about them.

Conventions used throughout:
* JavaScript strings are modelled as `List Char`; `String` values are
  converted at the boundary via `String.data`.
* JavaScript `null`/`undefined` results are modelled with `Option`.
* Falsy string tests (`if (!topic)`) are modelled by `jsStrFalsy`.
* External I/O (HTTP fetch, the LLM vendor, TTS, the document store) is
  modelled by passing the outcome of the call as an explicit argument; the
  pure data flow around it is translated from the source.
-/

namespace Praxis

/-! ### JavaScript string primitives -/

/-- The character class of JavaScript `\s` (whitespace), as used by `trim`,
`\s*` / `\s+` patterns and `\S`. -/
def isJsWs (c : Char) : Bool :=
  c.toNat = 32 || c.toNat = 9 || c.toNat = 10 || c.toNat = 13 ||
  c.toNat = 11 || c.toNat = 12 || c.toNat = 0xa0 || c.toNat = 0x1680 ||
  (0x2000 ≤ c.toNat && c.toNat ≤ 0x200a) || c.toNat = 0x2028 ||
  c.toNat = 0x2029 || c.toNat = 0x202f || c.toNat = 0x205f ||
  c.toNat = 0x3000 || c.toNat = 0xfeff

/-- ASCII lower-casing of one character (JS `toLowerCase` restricted to the
ASCII range, which is the range the repository's patterns use). -/
def lc (c : Char) : Char :=
  if 'A' ≤ c ∧ c ≤ 'Z' then Char.ofNat (c.toNat + 32) else c

/-- ASCII upper-casing of one character (JS `toUpperCase` on ASCII). -/
def uc (c : Char) : Char :=
  if 'a' ≤ c ∧ c ≤ 'z' then Char.ofNat (c.toNat - 32) else c

def lowerL (l : List Char) : List Char := l.map lc

def upperL (l : List Char) : List Char := l.map uc

/-- JS `String.prototype.trim`. -/
def trimL (l : List Char) : List Char :=
  ((l.dropWhile isJsWs).reverse.dropWhile isJsWs).reverse

/-- Exact list-prefix test (`Bool`-valued). -/
def isPre : List Char → List Char → Bool
  | [], _ => true
  | _ :: _, [] => false
  | p :: ps, c :: cs => p = c && isPre ps cs

/-- Case-insensitive prefix test (ASCII folding). -/
def isPreCI (pat l : List Char) : Bool := isPre (lowerL pat) (lowerL l)

/-- JS `String.prototype.includes` on char lists. -/
def containsL (hay pat : List Char) : Bool :=
  match hay with
  | [] => isPre pat []
  | _ :: rest => isPre pat hay || containsL rest pat

/-- A character of JS `\w` (= `[A-Za-z0-9_]`). -/
def isWordChar (c : Char) : Bool :=
  ('a' ≤ c && c ≤ 'z') || ('A' ≤ c && c ≤ 'Z') || ('0' ≤ c && c ≤ '9') || c = '_'

/-- `Option Char` version: edges of the string count as non-word. -/
def isWordCharO : Option Char → Bool
  | none => false
  | some c => isWordChar c

/-! ### JSON values (the enrollment payload shape) -/

mutual

/-- A JSON value, as delivered by the enrollment vendor API.  Object fields
are kept in insertion order, matching JS `Object.entries` iteration.
Arrays and objects carry their own spine types (`JsonList`, `JsonFields`)
so that all recursion over the tree is structural. -/
inductive Json where
  | str (s : String)
  | num (n : Int)
  | bool (b : Bool)
  | null
  | arr (items : JsonList)
  | obj (fields : JsonFields)

inductive JsonList where
  | nil
  | cons (hd : Json) (tl : JsonList)

inductive JsonFields where
  | nil
  | cons (key : String) (val : Json) (tl : JsonFields)

end

/-- Build a `JsonList` from a Lean list (for writing payload literals). -/
def jlist : List Json → JsonList
  | [] => .nil
  | v :: rest => .cons v (jlist rest)

/-- Build `JsonFields` from a Lean association list. -/
def jfields : List (String × Json) → JsonFields
  | [] => .nil
  | (k, v) :: rest => .cons k v (jfields rest)

/-- Array literal helper. -/
def jarr (items : List Json) : Json := .arr (jlist items)

/-- Object literal helper. -/
def jobj (fields : List (String × Json)) : Json := .obj (jfields fields)

/-- Is this JSON value the `null` literal? -/
def Json.isNull : Json → Bool
  | .null => true
  | _ => false

/-- JS truthiness of a JSON value (`undefined` is handled separately via
`Option Json`). -/
def Json.truthy : Json → Bool
  | .str s => s ≠ ""
  | .num n => n ≠ 0
  | .bool b => b
  | .null => false
  | .arr _ => true
  | .obj _ => true

/-- First field with the given key, in insertion order. -/
def JsonFields.lookup : JsonFields → String → Option Json
  | .nil, _ => none
  | .cons k v rest, key => if k = key then some v else rest.lookup key

/-- Property access `v.key` on a JSON value: `none` models JS `undefined`.
Access on `null` is the one case that throws in JS; callers that can reach
it model the `TypeError` with `Except`. -/
def Json.getField : Json → String → Option Json
  | .obj fields, key => fields.lookup key
  | _, _ => none

end Praxis

namespace Praxis

/-! ### Scope resolver (server.js lines 52–151)

`addSynonyms`, `harvestCourseStrings`, `buildAllowedFromPayload` and the
post-fetch logic of `getStudentScope`, translated from `src/server.js`.
The `fetch` + timeout + `response.json()` steps are external I/O; the
functions below start from the already-parsed JSON body `data`. -/

/-- The phrase bag: a JS `Set` of strings in insertion order. -/
def bagAdd (bag : List String) (s : String) : List String :=
  if s ∈ bag then bag else bag ++ [s]

def bagAddAll (bag : List String) (ss : List String) : List String :=
  ss.foldl bagAdd bag

/-- `/data\s*analytics?/`-style test: `a`, then any run of whitespace, then
`b`, somewhere in the string.  (The trailing `s?` of `analytics?` is
irrelevant for `.test`.) -/
def containsWithWsGap (hay : List Char) (a b : List Char) : Bool :=
  match hay with
  | [] => false
  | _ :: rest =>
    (isPre a hay && isPre b ((hay.drop a.length).dropWhile isJsWs)) ||
    containsWithWsGap rest a b

/-- `/\bword\b/`-style test: the word occurs with non-word characters (or
string edges) on both sides. -/
def containsWordAux (prev : Option Char) (hay w : List Char) : Bool :=
  match hay with
  | [] => false
  | c :: rest =>
    (!isWordCharO prev && isPre w hay && !isWordCharO ((hay.drop w.length).head?)) ||
    containsWordAux (some c) rest w

def containsWord (hay w : List Char) : Bool := containsWordAux none hay w

/-- `addSynonyms` from `src/server.js` (lines 55–84): adds the trimmed
display phrase and fixed domain-synonym families keyed on regex tests over
the lower-cased phrase. -/
def addSynonyms (phrase : String) (bag : List String) : List String :=
  let display := String.mk (trimL phrase.data)
  let p := lowerL display.data
  if display = "" then bag else
  let bag := bagAdd bag display
  let bag := if containsL p "javascript".data then bagAddAll bag ["javascript", "js"] else bag
  let bag :=
    if containsL p "python".data || containsWithWsGap p "data".data "analytic".data then
      bagAddAll bag ["python", "numpy", "pandas", "matplotlib", "seaborn",
        "scikit-learn", "jupyter", "anaconda", "etl", "data wrangling"]
    else bag
  let bag := if containsWord p "sql".data then bagAdd bag "sql" else bag
  let bag := if containsL p "excel".data then bagAdd bag "excel" else bag
  let bag :=
    if containsWithWsGap p "power".data "bi".data || containsL p "powerbi".data ||
        containsL p "pbi".data then
      bagAddAll bag ["power bi", "pbi", "powerbi"]
    else bag
  let bag :=
    if containsWithWsGap p "machine".data "learning".data then
      bagAddAll bag ["ml", "machine learning"]
    else bag
  let bag :=
    if containsWithWsGap p "web".data "scraping".data then bagAdd bag "web scraping" else bag
  let bag := if containsL p "dax".data then bagAdd bag "dax" else bag
  let bag :=
    if containsWord p "scrum".data || containsL p "agile".data then
      bagAddAll bag ["scrum", "agile", "scrum events", "scrum ceremonies",
        "agile ceremonies", "sprint planning", "daily scrum", "daily standup",
        "sprint review", "sprint retrospective", "backlog refinement",
        "product backlog refinement"]
    else bag
  let bag := if containsL p "kanban".data then bagAdd bag "kanban" else bag
  bag

/-- `TOPIC_STRING_KEYS` from `src/server.js`. -/
def TOPIC_STRING_KEYS : List String :=
  ["coursename", "course", "course_name", "name", "title", "topic",
   "topic_name", "label", "module", "module_name", "lesson", "lesson_name",
   "chapter", "section", "unit"]

mutual

/-- `harvestCourseStrings` from `src/server.js` (lines 91–113): recursive
walk of the JSON tree collecting, under recognised key names, trimmed
non-URL strings of length ≤ 200 via `addSynonyms`. -/
def harvestCourseStrings (node : Json) (bag : List String) : List String :=
  match node with
  | .arr items => harvestList items bag
  | .obj fields => harvestFields fields bag
  | _ => bag

/-- The `for (const it of node)` loop of `harvestCourseStrings` over an
array node. -/
def harvestList (items : JsonList) (bag : List String) : List String :=
  match items with
  | .nil => bag
  | .cons it rest => harvestList rest (harvestCourseStrings it bag)

/-- The `for (const [k, v] of Object.entries(node))` loop of
`harvestCourseStrings` over an object node. -/
def harvestFields (fields : JsonFields) (bag : List String) : List String :=
  match fields with
  | .nil => bag
  | .cons k v rest =>
    let key := String.mk (lowerL k.data)
    let bag :=
      match v with
      | .str sv =>
        if key ∈ TOPIC_STRING_KEYS then
          let s := String.mk (trimL sv.data)
          if s ≠ "" && !isPreCI "http://".data s.data &&
              !isPreCI "https://".data s.data && s.length ≤ 200 then
            addSynonyms s bag
          else bag
        else bag
      | .arr children => harvestList children bag
      | .obj inner => harvestFields inner bag
      | _ => bag
    harvestFields rest bag

end

/-- The scope returned by `buildAllowedFromPayload` / `getStudentScope`. -/
structure Scope where
  courseNames : List String
  allowedPhrases : List String
  deriving DecidableEq

instance {a b : Type} [DecidableEq a] [DecidableEq b] : DecidableEq (Except a b) := fun x y =>
  match x, y with
  | .error u, .error v => decidable_of_iff (u = v) (by simp)
  | .ok u, .ok v => decidable_of_iff (u = v) (by simp)
  | .error _, .ok _ => isFalse (by simp)
  | .ok _, .error _ => isFalse (by simp)

/-- JS `||` coalescing over a list of property names: the first truthy
field value, if any. -/
def jsOrFields (c : Json) : List String → Option Json
  | [] => none
  | k :: rest =>
    match c.getField k with
    | some v => if v.truthy then some v else jsOrFields c rest
    | none => jsOrFields c rest

/-- The `(c.coursename || c.course_name || c.name || c.title || "").trim()`
chain of `buildAllowedFromPayload`: first truthy field, then `.trim()`.
A truthy non-string value makes JS throw `TypeError` at `.trim()`, and a
`null` entry throws already at the property access; both are modelled as
`Except.error "TypeError"`. -/
def courseNameOf (c : Json) : Except String String :=
  if c.isNull then .error "TypeError" else
  match jsOrFields c ["coursename", "course_name", "name", "title"] with
  | none => .ok ""
  | some (.str s) => .ok (String.mk (trimL s.data))
  | some _ => .error "TypeError"

/-- One iteration of the `for (const c of enrolled)` loop body of
`buildAllowedFromPayload` (`src/server.js` lines 119–125). -/
def enrolledStep (acc : List String × List String) (c : Json) :
    Except String (List String × List String) :=
  match courseNameOf c with
  | .error e => .error e
  | .ok courseName =>
    let (courseNames, phrases) := acc
    let (courseNames, phrases) :=
      if courseName ≠ "" then
        (courseNames ++ [courseName], addSynonyms courseName phrases)
      else (courseNames, phrases)
    let phrases :=
      match c.getField "course_topics" with
      | some v => if v.truthy then harvestCourseStrings v phrases
                  else harvestCourseStrings c phrases
      | none => harvestCourseStrings c phrases
    .ok (courseNames, phrases)

def enrolledLoop (acc : List String × List String) :
    JsonList → Except String (List String × List String)
  | .nil => .ok acc
  | .cons c rest =>
    match enrolledStep acc c with
    | .error e => .error e
    | .ok acc' => enrolledLoop acc' rest

/-- `buildAllowedFromPayload` from `src/server.js` (lines 115–131).
Accessing `data.enrolled_courses` on a `null` body throws. -/
def buildAllowedFromPayload (data : Json) : Except String Scope :=
  if data.isNull then .error "TypeError" else
  let enrolled :=
    match data.getField "enrolled_courses" with
    | some (.arr items) => items
    | _ => .nil
  match enrolledLoop ([], []) enrolled with
  | .error e => .error e
  | .ok (courseNames, phrases) =>
    let sandbox :=
      match data.getField "sandbox" with
      | some (.arr items) => items
      | _ => .nil
    let phrases := harvestList sandbox phrases
    .ok { courseNames := courseNames, allowedPhrases := phrases }

/-- `getStudentScope` from `src/server.js` (lines 139–151), starting from
the parsed response body `data` (the email normalisation, URL building,
fetch and timeout are external I/O preceding this logic). -/
def getStudentScope (data : Json) : Except String Scope :=
  match buildAllowedFromPayload data with
  | .error e => .error e
  | .ok scope =>
    if scope.courseNames.length = 0 then
      .error "No active course enrollment found."
    else .ok scope

end Praxis

namespace Praxis

/-! ### C1 -/

/-- C1: for every enrollment payload whose derived course-name list is
empty, `getStudentScope` fails with exactly the error
`"No active course enrollment found."` rather than returning an
empty-but-successful scope, and for every payload with at least one named
enrolled course it returns the scope without raising that error. -/
theorem c1_empty_scope_fails (data : Json) (scope : Scope)
    (h : buildAllowedFromPayload data = Except.ok scope) :
    (scope.courseNames = [] →
      getStudentScope data = Except.error "No active course enrollment found.") ∧
    (scope.courseNames ≠ [] → getStudentScope data = Except.ok scope) := by
  constructor
  · intro hempty
    simp [getStudentScope, h, hempty]
  · intro hne
    have : scope.courseNames.length ≠ 0 := by
      simpa [List.length_eq_zero] using hne
    simp [getStudentScope, h, this]

/-- Witness for C1: a payload with zero named courses is refused with the
exact error, and a payload with one named course succeeds. -/
theorem c1_empty_scope_fails_witness :
    getStudentScope (jobj [("enrolled_courses", jarr [])]) =
      Except.error "No active course enrollment found." ∧
    getStudentScope
        (jobj [("enrolled_courses",
          jarr [jobj [("coursename", Json.str "Data Analytics")]])]) ≠
      Except.error "No active course enrollment found." := by
  constructor
  · exact (c1_empty_scope_fails (jobj [("enrolled_courses", jarr [])])
      { courseNames := [], allowedPhrases := [] } (by decide)).1 rfl
  · have h := (c1_empty_scope_fails
      (jobj [("enrolled_courses",
        jarr [jobj [("coursename", Json.str "Data Analytics")]])])
      { courseNames := ["Data Analytics"],
        allowedPhrases := ["Data Analytics", "python", "numpy", "pandas",
          "matplotlib", "seaborn", "scikit-learn", "jupyter", "anaconda",
          "etl", "data wrangling"] } (by decide)).2 (by decide)
    simp [h]

end Praxis

namespace Praxis

/-! ### Topic resolution (index.js lines 445–651)

`extractExplicitTopic`, `bestPhraseMatch`, `bestFuzzyMatch` and the topic
chain of `resolveIntentAndTopic`, translated from `src/index.js`. -/

/-- JS falsiness of an optional string (`null` or `""`). -/
def jsStrFalsy : Option String → Bool
  | none => true
  | some s => s = ""

/-- A character matched by `[a-z0-9]` (the token class of
`/\b[a-z0-9]+\b/g`). -/
def isTokChar (c : Char) : Bool :=
  ('a' ≤ c && c ≤ 'z') || ('0' ≤ c && c ≤ '9')

/-- Scanner for `/\b[a-z0-9]+\b/g`: collects maximal `[a-z0-9]` runs whose
neighbours on both sides are non-word characters (or the string edges).
`runOk` records whether the current run started at a word boundary;
a run adjacent to `_` (a word character outside `[a-z0-9]`) yields no
token, exactly as the JS regex behaves after lower-casing.  `ok` is the
boundary status: at a run start it says whether the character before the
run was a non-word character (or the string edge). -/
def tokensGo (ok : Bool) (run : List Char) : List Char → List String
  | [] => if ok && run ≠ [] then [String.mk run.reverse] else []
  | c :: rest =>
    if isTokChar c then
      tokensGo ok (c :: run) rest
    else
      if ok && run ≠ [] && !isWordChar c then
        String.mk run.reverse :: tokensGo (!isWordChar c) [] rest
      else
        tokensGo (!isWordChar c) [] rest

/-- `String.prototype.match(/\b[a-z0-9]+\b/g) || []` on an
(already lower-cased) char list. -/
def jsTokens (l : List Char) : List String := tokensGo true [] l

/-- A JS `Set` built from a list: deduplicated, insertion order. -/
def dedupFirst (l : List String) : List String := l.foldl bagAdd []

/-- The "strong" domain keywords of `bestFuzzyMatch`. -/
def STRONG_TOKENS : List String :=
  ["scrum", "agile", "kanban", "sprint", "review", "retrospective",
   "backlog", "ceremonies", "events"]

/-- The per-phrase weighted score of `bestFuzzyMatch`
(`src/index.js` lines 557–571): shared-token count over
`max(1, #phrase tokens)` plus `0.5` when a shared token is strong.
Numbers are modelled in `ℚ` (JS numbers are floats; all quantities here
are small exact fractions). -/
def fuzzyWeighted (msgToks : List String) (ph : String) : ℚ :=
  let ptoks := dedupFirst (jsTokens (lowerL ph.data))
  let inter := ptoks.filter (fun t => msgToks.contains t)
  let score : ℚ := (inter.length : ℚ) / (max 1 ptoks.length : ℚ)
  let hasStrong := inter.any (fun t => STRONG_TOKENS.contains t)
  score + (if hasStrong then (1 : ℚ) / 2 else 0)

/-- The `for (const ph of phrases)` fold of `bestFuzzyMatch`: keep the
first strictly-greater weighted phrase (`weighted > best.score`). -/
def fuzzFold (msgToks : List String) (q : String × ℚ) : List String → String × ℚ
  | [] => q
  | p :: rest =>
    let w := fuzzyWeighted msgToks p
    fuzzFold msgToks (if w > q.2 then (p, w) else q) rest

/-- `bestFuzzyMatch` from `src/index.js` (lines 557–571). -/
def bestFuzzyMatch (msg : String) (phrases : List String) : Option String :=
  if msg = "" || phrases.isEmpty then none else
  let toks := dedupFirst (jsTokens (lowerL msg.data))
  match phrases with
  | [] => none
  | p :: rest =>
    let best := fuzzFold toks (p, fuzzyWeighted toks p) rest
    if best.2 ≥ 7 / 20 then some best.1 else none

/-- `bestFuzzyMatch` as the specification sentence describes it: score
every allowed phrase by `fuzzyWeighted`, and return the highest-weighted
phrase (the first one, on ties) exactly when its weighted score is at
least 0.35, `null` otherwise. -/
def bestFuzzyMatchFromSpec (msg : String) (phrases : List String) : Option String :=
  let toks := dedupFirst (jsTokens (lowerL msg.data))
  match phrases with
  | [] => none
  | _ =>
    let wmax := (phrases.map (fuzzyWeighted toks)).foldl max 0
    if wmax ≥ 7 / 20 then
      phrases.find? (fun p => fuzzyWeighted toks p = wmax)
    else none

/-- The loop body of `bestPhraseMatch`: keep the first longest lower-cased
phrase contained in the lower-cased message `m`. -/
def phraseStep (m : List Char) (best : Option (List Char × String))
    (p : String) : Option (List Char × String) :=
  let pp := lowerL p.data
  if pp ≠ [] && containsL m pp then
    match best with
    | none => some (pp, p)
    | some b => if pp.length > b.1.length then some (pp, p) else best
  else best

/-- The `for (const p of phrases)` fold of `bestPhraseMatch`. -/
def phraseFold (m : List Char) (best : Option (List Char × String)) :
    List String → Option (List Char × String)
  | [] => best
  | p :: rest => phraseFold m (phraseStep m best p) rest

/-- `bestPhraseMatch` from `src/index.js` (lines 543–554): the longest
allowed phrase contained case-insensitively in the message. -/
def bestPhraseMatch (msg : String) (phrases : List String) : Option String :=
  if msg = "" || phrases.isEmpty then none else
  (phraseFold (lowerL msg.data) none phrases).map (·.2)

/-- The quote characters of `/["“”']([^"“”']{3,120})["“”']/`. -/
def isQuoteChar (c : Char) : Bool :=
  c = Char.ofNat 34 || c = Char.ofNat 0x201C || c = Char.ofNat 0x201D ||
  c = Char.ofNat 39

/-- Leftmost match of `/["“”']([^"“”']{3,120})["“”']/`: an opening quote
whose next quote character lies 3–120 characters further on; the capture
is the text between them.  (Scanning position by position is equivalent to
the JS engine's behaviour because a match can only start on a quote
character.) -/
def findQuoteCapture : List Char → Option (List Char)
  | [] => none
  | c :: rest =>
    if isQuoteChar c then
      let d := (rest.takeWhile (fun x => !isQuoteChar x)).length
      if rest.drop d ≠ [] && 3 ≤ d && d ≤ 120 then some (rest.take d)
      else findQuoteCapture rest
    else findQuoteCapture rest

/-- The `(?:\s+)([^.?]{3,140})` continuation of the "about" pattern, with
JS backtracking semantics: the whitespace run may give characters back to
the (greedy, 3–140 character) capture when fewer than three non-`[.?]`
characters follow it. -/
def aboutCont (tail : List Char) : Option (List Char) :=
  let w := (tail.takeWhile isJsWs).length
  let L := (tail.takeWhile (fun c => !(c = '.' || c = '?'))).length
  if w = 0 then none
  else if 3 ≤ L - w then some ((tail.drop w).take (min 140 (L - w)))
  else if 4 ≤ L then some ((tail.drop (L - 3)).take 3)
  else none

/-- One attempt of `(?:about|on|regarding|re:?)` (case-insensitive,
alternatives in source order, `re:` tried before bare `re`) followed by
the `aboutCont` continuation. -/
def aboutAlt (l : List Char) : Option (List Char) :=
  (if isPreCI "about".data l then aboutCont (l.drop 5) else none) <|>
  (if isPreCI "on".data l then aboutCont (l.drop 2) else none) <|>
  (if isPreCI "regarding".data l then aboutCont (l.drop 9) else none) <|>
  (if isPreCI "re".data l then
    (if (l.drop 2).head? = some ':' then aboutCont (l.drop 3) else none) <|>
      aboutCont (l.drop 2)
  else none)

/-- Leftmost match of `/\b(?:about|on|regarding|re:?)(?:\s+)([^.?]{3,140})/i`:
scan positions left to right; a match can only start at a word boundary
(every alternative starts with a letter, so the boundary is "previous
character is not a word character"). -/
def aboutScan (prev : Option Char) : List Char → Option (List Char)
  | [] => none
  | c :: rest =>
    match (if isWordCharO prev then none else aboutAlt (c :: rest)) with
    | some cap => some cap
    | none => aboutScan (some c) rest

/-- First stop word of `/\b(them|it|this|that|the subject)\b/gi` matching
at the head of `l` (alternatives in source order, each with its trailing
word boundary), returning its length. -/
def stopHit (l : List Char) : Option Nat :=
  (if isPreCI "them".data l && !isWordCharO ((l.drop 4).head?) then some 4 else none) <|>
  (if isPreCI "it".data l && !isWordCharO ((l.drop 2).head?) then some 2 else none) <|>
  (if isPreCI "this".data l && !isWordCharO ((l.drop 4).head?) then some 4 else none) <|>
  (if isPreCI "that".data l && !isWordCharO ((l.drop 4).head?) then some 4 else none) <|>
  (if isPreCI "the subject".data l && !isWordCharO ((l.drop 11).head?) then some 11 else none)

/-- `.replace(/\b(them|it|this|that|the subject)\b/gi, '')`: remove every
boundary-delimited stop word.  `wordBefore` tracks whether the previous
original character was a word character (all the stop words end in one);
`fuel` is a structural bound (every step consumes at least one character),
set to the input length by `stopRemove`. -/
def stopRemoveGo : Nat → Bool → List Char → List Char
  | 0, _, _ => []
  | _, _, [] => []
  | fuel + 1, wordBefore, c :: rest =>
    match (if wordBefore then none else stopHit (c :: rest)) with
    | some 2 => stopRemoveGo fuel true (rest.drop 1)
    | some 4 => stopRemoveGo fuel true (rest.drop 3)
    | some 11 => stopRemoveGo fuel true (rest.drop 10)
    | _ => c :: stopRemoveGo fuel (isWordChar c) rest

/-- The full stop-word removal pass. -/
def stopRemove (l : List Char) : List Char := stopRemoveGo l.length false l

/-- `extractExplicitTopic` from `src/index.js` (lines 445–451). -/
def extractExplicitTopic (msg : String) : Option String :=
  match findQuoteCapture msg.data with
  | some cap => some (String.mk (trimL cap))
  | none =>
    match aboutScan none msg.data with
    | some cap => some (String.mk (trimL (stopRemove cap)))
    | none => none

/-- The persisted conversation state consulted by
`resolveIntentAndTopic` (`getConvState` fields it reads). -/
structure ConvState where
  lastTopic : Option String
  preferredFormat : Option String

/-- `resolveIntentAndTopic` from `src/index.js` (lines 626–642).  The
format detector result (`detectFormatFromMessage`, a family of independent
format regexes that neither reads nor writes the topic) is passed in as
`detectedFormat`; the topic chain below is the translation of the four
`if (!topic)` steps.  Returns `(topic, format)`. -/
def resolveIntentAndTopic (userMessage : String) (allowedPhrases : List String)
    (state : ConvState) (detectedFormat : Option String) :
    Option String × Option String :=
  let t1 := extractExplicitTopic userMessage
  let t2 := if jsStrFalsy t1 then bestPhraseMatch userMessage allowedPhrases else t1
  let t3 := if jsStrFalsy t2 then bestFuzzyMatch userMessage allowedPhrases else t2
  let topic := if jsStrFalsy t3 then state.lastTopic else t3
  let format := if jsStrFalsy detectedFormat then state.preferredFormat else detectedFormat
  (topic, format)

end Praxis

namespace Praxis

/-! ### Lemmas about the fuzzy fold (for C8) -/

theorem fuzzyWeighted_nonneg (toks : List String) (ph : String) :
    0 ≤ fuzzyWeighted toks ph := by
  simp only [fuzzyWeighted]
  split_ifs <;> positivity

theorem fuzzyWeighted_empty_toks (ph : String) : fuzzyWeighted [] ph = 0 := by
  simp [fuzzyWeighted]

theorem foldl_max_init_le (l : List ℚ) (v : ℚ) : v ≤ l.foldl max v := by
  induction l generalizing v with
  | nil => simp
  | cons x rest ih =>
    simp only [List.foldl_cons]
    exact le_trans (le_max_left v x) (ih (max v x))

theorem foldl_max_zero_of_all_zero (l : List ℚ) (h : ∀ x ∈ l, x = 0) :
    l.foldl max 0 = 0 := by
  induction l with
  | nil => simp
  | cons x rest ih =>
    have hx : x = 0 := h x (by simp)
    simp only [List.foldl_cons, hx, max_self]
    exact ih (fun y hy => h y (by simp [hy]))

/-- The fuzzy fold starting from the pair of the first phrase computes the
maximum weighted score together with the first phrase attaining it. -/
theorem fuzzFold_first_max (toks : List String) (l : List String) (a : String) :
    (fuzzFold toks (a, fuzzyWeighted toks a) l).2 =
      (l.map (fuzzyWeighted toks)).foldl max (fuzzyWeighted toks a) ∧
    some (fuzzFold toks (a, fuzzyWeighted toks a) l).1 =
      (a :: l).find? (fun p => decide (fuzzyWeighted toks p =
        (l.map (fuzzyWeighted toks)).foldl max (fuzzyWeighted toks a))) := by
  induction l generalizing a with
  | nil =>
    refine ⟨by simp [fuzzFold], ?_⟩
    simp [fuzzFold, List.find?_cons]
  | cons p rest ih =>
    set w := fuzzyWeighted toks with hw
    by_cases h : w p > w a
    · have hmax : max (w a) (w p) = w p := max_eq_right (le_of_lt h)
      have hfold : fuzzFold toks (a, w a) (p :: rest) = fuzzFold toks (p, w p) rest := by
        simp [fuzzFold, h]
      have hM : ((p :: rest).map w).foldl max (w a) = (rest.map w).foldl max (w p) := by
        simp [List.foldl_cons, hmax]
      have hMge : w p ≤ (rest.map w).foldl max (w p) := foldl_max_init_le _ _
      have hane : ¬ (w a = (rest.map w).foldl max (w p)) :=
        ne_of_lt (lt_of_lt_of_le h hMge)
      refine ⟨by rw [hfold, hM]; exact (ih p).1, ?_⟩
      rw [hfold, hM]
      rw [List.find?_cons_of_neg _ (by simpa using hane)]
      exact (ih p).2
    · have hle : w p ≤ w a := le_of_not_lt h
      have hmax : max (w a) (w p) = w a := max_eq_left hle
      have hfold : fuzzFold toks (a, w a) (p :: rest) = fuzzFold toks (a, w a) rest := by
        simp [fuzzFold, h]
      have hM : ((p :: rest).map w).foldl max (w a) = (rest.map w).foldl max (w a) := by
        simp [List.foldl_cons, hmax]
      refine ⟨by rw [hfold, hM]; exact (ih a).1, ?_⟩
      rw [hfold, hM]
      by_cases ha : w a = (rest.map w).foldl max (w a)
      · have := (ih a).2
        rw [List.find?_cons_of_pos _ (by simpa using ha)] at this
        rw [List.find?_cons_of_pos _ (by simpa using ha)]
        exact this
      · have hMge : w a ≤ (rest.map w).foldl max (w a) := foldl_max_init_le _ _
        have hpne : ¬ (w p = (rest.map w).foldl max (w a)) :=
          ne_of_lt (lt_of_le_of_lt hle (lt_of_le_of_ne hMge ha))
        rw [List.find?_cons_of_neg _ (by simpa using ha),
          List.find?_cons_of_neg _ (by simpa using hpne)]
        have := (ih a).2
        rw [List.find?_cons_of_neg _ (by simpa using ha)] at this
        exact this

end Praxis

namespace Praxis

/-- C8: `bestFuzzyMatch` behaves exactly as the specification sentence
describes: each allowed phrase is scored as shared-token count over
`max(1, #phrase tokens)` plus a 0.5 strong-keyword bonus, and the
highest-weighted phrase is returned iff its weighted score is at least
0.35, `null` otherwise. -/
theorem c8_bestFuzzyMatch_matches_spec (msg : String) (phrases : List String) :
    bestFuzzyMatch msg phrases = bestFuzzyMatchFromSpec msg phrases := by
  match phrases with
  | [] => simp [bestFuzzyMatch, bestFuzzyMatchFromSpec]
  | p :: rest =>
    by_cases hm : msg = ""
    · subst hm
      have htoks : dedupFirst (jsTokens (lowerL "".data)) = [] := rfl
      have hzero : ∀ x ∈ (p :: rest).map (fuzzyWeighted []), x = 0 := by
        intro x hx
        obtain ⟨q, _, hq⟩ := List.mem_map.mp hx
        rw [← hq]; exact fuzzyWeighted_empty_toks q
      have hmax := foldl_max_zero_of_all_zero _ hzero
      simp only [bestFuzzyMatch, bestFuzzyMatchFromSpec, htoks, hmax]
      norm_num
    · have hguard : (msg = "" || (p :: rest).isEmpty) = false := by
        simp [hm]
      set toks := dedupFirst (jsTokens (lowerL msg.data)) with htoks
      set w := fuzzyWeighted toks with hw
      have hinit : max (0 : ℚ) (w p) = w p := max_eq_right (fuzzyWeighted_nonneg toks p)
      have hfold0 : ((p :: rest).map w).foldl max 0 = (rest.map w).foldl max (w p) := by
        simp [List.foldl_cons, hinit]
      obtain ⟨h1, h2⟩ := fuzzFold_first_max toks rest p
      simp only [bestFuzzyMatch, bestFuzzyMatchFromSpec, hguard, Bool.false_eq_true,
        if_false, ← htoks, ← hw, hfold0, h1]
      by_cases hth : (7 : ℚ) / 20 ≤ (rest.map w).foldl max (w p)
      · rw [if_pos hth, if_pos hth]
        exact h2
      · rw [if_neg hth, if_neg hth]

end Praxis

namespace Praxis

/-! ### Lemmas about the exact phrase fold (for C2) -/

/-- Invariant carried by `phraseFold` over the scanned prefix: `none`
means no (nonempty, contained) phrase was seen; `some (pp, q)` is the
first longest contained phrase so far. -/
def PFInv (m : List Char) (scanned : List String) :
    Option (List Char × String) → Prop
  | none => ∀ r ∈ scanned, lowerL r.data ≠ [] → containsL m (lowerL r.data) = false
  | some (pp, q) => q ∈ scanned ∧ pp = lowerL q.data ∧ pp ≠ [] ∧
      containsL m pp = true ∧
      ∀ r ∈ scanned, containsL m (lowerL r.data) = true →
        (lowerL r.data).length ≤ pp.length

theorem phraseStep_inv (m : List Char) (scanned : List String)
    (best : Option (List Char × String)) (p : String)
    (h : PFInv m scanned best) :
    PFInv m (scanned ++ [p]) (phraseStep m best p) := by
  cases best with
  | none =>
    by_cases hc : lowerL p.data ≠ [] && containsL m (lowerL p.data)
    · simp only [Bool.and_eq_true, ne_eq, decide_not, Bool.not_eq_true',
        decide_eq_false_iff_not] at hc
      obtain ⟨hne, hcont⟩ := hc
      have hred : phraseStep m none p = some (lowerL p.data, p) := by
        simp [phraseStep, hne, hcont]
      rw [hred]
      refine ⟨by simp, rfl, by simpa using hne, hcont, ?_⟩
      intro r hr hrc
      rcases List.mem_append.mp hr with hr | hr
      · by_cases hrne : lowerL r.data = []
        · simp [hrne]
        · exact absurd hrc (by simp [h r hr hrne])
      · have : r = p := by simpa using hr
        subst this; exact le_refl _
    · have hred : phraseStep m none p = none := by
        simp only [phraseStep, if_neg hc]
      rw [hred]
      intro r hr hrne
      rcases List.mem_append.mp hr with hr | hr
      · exact h r hr hrne
      · have : r = p := by simpa using hr
        subst this
        by_cases hcont : containsL m (lowerL r.data) = true
        · exact absurd (by simp [hrne, hcont] : (lowerL r.data ≠ [] &&
            containsL m (lowerL r.data)) = true) hc
        · simpa using hcont
  | some b =>
    obtain ⟨hbmem, hbpp, hbne, hbcont, hbmax⟩ := h
    by_cases hc : lowerL p.data ≠ [] && containsL m (lowerL p.data)
    · simp only [Bool.and_eq_true, ne_eq, decide_not, Bool.not_eq_true',
        decide_eq_false_iff_not] at hc
      obtain ⟨hne, hcont⟩ := hc
      by_cases hlen : (lowerL p.data).length > b.1.length
      · have hred : phraseStep m (some b) p = some (lowerL p.data, p) := by
          simp [phraseStep, hne, hcont, hlen]
        rw [hred]
        refine ⟨by simp, rfl, by simpa using hne, hcont, ?_⟩
        intro r hr hrc
        rcases List.mem_append.mp hr with hr | hr
        · exact le_trans (hbmax r hr hrc) (le_of_lt hlen)
        · have : r = p := by simpa using hr
          subst this; exact le_refl _
      · have hred : phraseStep m (some b) p = some b := by
          simp [phraseStep, hne, hcont, hlen]
        rw [hred]
        refine ⟨List.mem_append_left _ hbmem, hbpp, hbne, hbcont, ?_⟩
        intro r hr hrc
        rcases List.mem_append.mp hr with hr | hr
        · exact hbmax r hr hrc
        · have : r = p := by simpa using hr
          subst this; exact le_of_not_lt hlen
    · have hred : phraseStep m (some b) p = some b := by
        simp only [phraseStep, if_neg hc]
      rw [hred]
      refine ⟨List.mem_append_left _ hbmem, hbpp, hbne, hbcont, ?_⟩
      intro r hr hrc
      rcases List.mem_append.mp hr with hr | hr
      · exact hbmax r hr hrc
      · have : r = p := by simpa using hr
        subst this
        have hz : lowerL r.data = [] := by
          by_contra hne
          exact hc (by simp [hne, hrc])
        simp [hz]

theorem phraseFold_inv (m : List Char) (l : List String) :
    ∀ (scanned : List String) (best : Option (List Char × String)),
    PFInv m scanned best → PFInv m (scanned ++ l) (phraseFold m best l) := by
  induction l with
  | nil => intro scanned best h; simpa [phraseFold] using h
  | cons p rest ih =>
    intro scanned best h
    have hstep := phraseStep_inv m scanned best p h
    have := ih (scanned ++ [p]) _ hstep
    simpa [phraseFold, List.append_assoc] using this

theorem lowerL_nil_iff (s : String) : lowerL s.data = [] ↔ s = "" := by
  constructor
  · intro h
    have hd : s.data = [] := by
      cases hd : s.data with
      | nil => rfl
      | cons c cs => rw [hd] at h; simp [lowerL] at h
    exact String.ext (by simpa using hd)
  · intro h; subst h; rfl

/-- `bestPhraseMatch` finds a longest contained phrase whenever some
nonempty allowed phrase occurs (case-insensitively) in the message. -/
theorem bestPhraseMatch_found (msg : String) (phrases : List String)
    (p : String) (hp : p ∈ phrases) (hne : p ≠ "")
    (hcont : containsL (lowerL msg.data) (lowerL p.data) = true) :
    ∃ q, bestPhraseMatch msg phrases = some q ∧ q ∈ phrases ∧ q ≠ "" ∧
      containsL (lowerL msg.data) (lowerL q.data) = true ∧
      ∀ r ∈ phrases, containsL (lowerL msg.data) (lowerL r.data) = true →
        (lowerL r.data).length ≤ (lowerL q.data).length := by
  have hplow : lowerL p.data ≠ [] := fun h => hne ((lowerL_nil_iff p).mp h)
  have hmsg : msg ≠ "" := by
    intro h; subst h
    obtain ⟨c, cs, hcs⟩ : ∃ c cs, lowerL p.data = c :: cs := by
      cases hl : lowerL p.data with
      | nil => exact absurd hl hplow
      | cons c cs => exact ⟨c, cs, rfl⟩
    rw [hcs] at hcont
    simp [containsL, isPre] at hcont
  have hempty : ¬ phrases.isEmpty := by
    cases phrases with
    | nil => simp at hp
    | cons a l => simp
  have hguard : (msg = "" || phrases.isEmpty) = false := by
    simp [hmsg, hempty]
  have hinv := phraseFold_inv (lowerL msg.data) phrases [] none (by
    intro r hr; simp at hr)
  cases hfold : phraseFold (lowerL msg.data) none phrases with
  | none =>
    rw [hfold] at hinv
    simp only [List.nil_append] at hinv
    exact absurd hcont (by simp [hinv p hp hplow])
  | some b =>
    obtain ⟨pp, q⟩ := b
    rw [hfold] at hinv
    simp only [List.nil_append] at hinv
    obtain ⟨hqmem, hqpp, hqne, hqcont, hqmax⟩ := hinv
    refine ⟨q, ?_, hqmem, ?_, ?_, ?_⟩
    · simp [bestPhraseMatch, hguard, hfold]
    · intro h; subst h; exact hqne (by simpa using hqpp)
    · rw [← hqpp]; exact hqcont
    · intro r hr hrc
      rw [← hqpp]; exact hqmax r hr hrc

end Praxis

namespace Praxis

/-- C2: in `resolveIntentAndTopic`'s precedence chain, whenever the
explicit quoted/"about X" extraction yields nothing and some nonempty
allowed phrase occurs literally (case-insensitively) as a substring of the
message, the topic is the exact `bestPhraseMatch` result — a longest
contained allowed phrase — and the fuzzy matcher's result is never used. -/
theorem c2_exact_match_beats_fuzzy (msg : String) (phrases : List String)
    (st : ConvState) (df : Option String)
    (hexp : jsStrFalsy (extractExplicitTopic msg) = true)
    (hex : ∃ p ∈ phrases, p ≠ "" ∧
      containsL (lowerL msg.data) (lowerL p.data) = true) :
    ∃ q, bestPhraseMatch msg phrases = some q ∧
      (resolveIntentAndTopic msg phrases st df).1 = some q ∧
      q ∈ phrases ∧
      containsL (lowerL msg.data) (lowerL q.data) = true ∧
      ∀ r ∈ phrases, containsL (lowerL msg.data) (lowerL r.data) = true →
        (lowerL r.data).length ≤ (lowerL q.data).length := by
  obtain ⟨p, hp, hpne, hpcont⟩ := hex
  obtain ⟨q, hbest, hqmem, hqne, hqcont, hqmax⟩ :=
    bestPhraseMatch_found msg phrases p hp hpne hpcont
  refine ⟨q, hbest, ?_, hqmem, hqcont, hqmax⟩
  have hqfalsy : jsStrFalsy (some q) = false := by simp [jsStrFalsy, hqne]
  simp only [resolveIntentAndTopic, hexp, if_pos rfl, hbest]
  simp [hqfalsy, hexp]

/-- Witness for C2: the message "i want to learn data analytics" has no
explicit topic, contains the enrolled course name "Data Analytics", and
resolves to exactly that phrase. -/
theorem c2_exact_match_beats_fuzzy_witness :
    jsStrFalsy (extractExplicitTopic "i want to learn data analytics") = true ∧
    (resolveIntentAndTopic "i want to learn data analytics"
        ["Data Analytics", "Python"] ⟨none, none⟩ none).1 = some "Data Analytics" := by
  have h := c2_exact_match_beats_fuzzy "i want to learn data analytics"
    ["Data Analytics", "Python"] ⟨none, none⟩ none (by decide)
    ⟨"Data Analytics", by decide, by decide, by decide⟩
  obtain ⟨q, h1, h2, -⟩ := h
  have hq : some q = some "Data Analytics" := by
    rw [← h1]; decide
  exact ⟨by decide, by rw [h2]; exact hq⟩

end Praxis

namespace Praxis

/-! ### The WebSocket server (part_006 lines 773–938, server.js lines 1134–1253)

The `wss.on("connection")` message handler, translated as a transition
function over the per-connection state.  External calls (`getStudentScope`
fetch, the Gemini vendor call, Google TTS) are passed in as outcome
arguments; the long prompt literals (`BASE_SYSTEM_INSTRUCTION`,
`QUIZ_MODE_INSTRUCTION`) are carried in `Env` since only their
concatenation structure matters here. -/

/-- One stored conversation turn (`{ role, text }`). -/
structure Turn where
  role : String
  text : String
  deriving DecidableEq

/-- One Gemini `contents` item (`{ role: "user"|"model", parts: [{text}] }`). -/
structure Content where
  role : String
  text : String
  deriving DecidableEq

/-- A parsed client→server WebSocket message. -/
inductive ClientMsg where
  | start (student_email : String) (lmsKey : Option String) (history : JsonList)
  | userText (text : String) (requestId : Option String)
  | stop
  | ping
  | other (t : String)

/-- Server outputs and effects, in emission order: `llmCall` records the
system instruction, the contents actually sent to the vendor and the
token cap. -/
inductive ServerOut where
  | ready
  | pong
  | errorMsg (error : String)
  | llmCall (systemInstruction : String) (contents : List Content) (maxTokens : Nat)
  | assistantText (text : String) (requestId : String) (audio : Option (String × String))
  deriving DecidableEq

/-- `ws.session` as stored by the `start` handler. -/
structure WsSession where
  studentEmail : String
  lmsKey : Option String
  systemInstruction : String
  history : List Turn
  deriving DecidableEq

/-- Per-connection state: the session (if started) and whether
`ws.close()` has been called. -/
structure ConnState where
  session : Option WsSession
  closed : Bool
  deriving DecidableEq

/-- Environment: `process.env.MY_LMS_API_KEY` and the prompt literals. -/
structure Env where
  myLmsApiKey : Option String
  baseSystemInstruction : String
  quizModeInstruction : String

/-- `normalizeEmail` (`String(e || "").trim().toLowerCase()`). -/
def normalizeEmail (e : String) : String := String.mk (lowerL (trimL e.data))

/-- JS `s || fallback` for strings. -/
def jsOrStr (s fallback : String) : String := if s = "" then fallback else s

/-- `summarizeAllowed` from `src/unnamed/part_006` (lines 374–378) and
`src/server.js`. -/
def summarizeAllowed (arr : List String) (n : Nat) : String :=
  if arr.isEmpty then "(none)" else
  let head := String.intercalate " • " (arr.take n)
  head ++ (if arr.length > n then
    let k := arr.length - n
    s!" • (+{k} more)"
  else "")

/-- `buildContextHeader` from `src/unnamed/part_006` (lines 380–393). -/
def buildContextHeader (studentEmail enrolledCourseNames : String)
    (allowedPhrases : List String) : String :=
  let sample := summarizeAllowed allowedPhrases 80
  "[CONTEXT]\nStudent Email: " ++ studentEmail ++
  "\nEnrolled Course(s): \"" ++ enrolledCourseNames ++
  "\"\n[ALLOWED TOPICS EXAMPLES] (not exhaustive, you may generalize): " ++ sample ++
  "\n\n[POLICY]\n- You are Praxis, a calm, friendly MALE online tutor for Pluralcode Academy.\n" ++
  "- Focus on the student's enrolled course(s) and closely related tools and topics.\n" ++
  "- Standard tools for those courses (for example: Excel, Power BI, SQL, Python, NumPy, pandas, Jupyter, ETL, Scrum, Kanban, etc.) are considered IN SCOPE even if the exact word does not literally appear in the raw curriculum data.\n" ++
  "- Only say a topic is \"outside their curriculum\" if it is clearly unrelated to all enrolled courses.\n" ++
  "- If something is ambiguous but plausibly part of their course (like Excel for Data Analytics), treat it as in-scope and answer."

/-- `isQuizRequest` from `src/unnamed/part_006` (lines 395–405). -/
def isQuizRequest (text : String) : Bool :=
  if text = "" then false else
  let t := lowerL text.data
  containsL t "quiz".data || containsL t "test me".data ||
  containsL t "practice questions".data || containsL t "practice test".data ||
  containsL t "mcq".data ||
  (containsL t "multiple choice".data && containsL t "question".data)

/-- `clampContents` from `src/unnamed/part_006` (lines 468–472): keep only
the most recent `maxItems` contents items. -/
def clampContents (contents : List Content) (maxItems : Nat) : List Content :=
  if contents.length ≤ maxItems then contents
  else contents.drop (contents.length - maxItems)

/-- The `initialHistory` filter of the part_006 `start` handler
(lines 825–832): keep entries that are truthy, have a string `text` and a
role of `"user"` or `"assistant"`. -/
def historyFilter : JsonList → List Turn
  | .nil => []
  | .cons h rest =>
    let keep :=
      h.truthy &&
      (match h.getField "text" with | some (.str _) => true | _ => false) &&
      (match h.getField "role" with
        | some (.str r) => r = "user" || r = "assistant"
        | _ => false)
    if keep then
      let t := match h.getField "text" with | some (.str t) => t | _ => ""
      let r := match h.getField "role" with | some (.str r) => r | _ => ""
      ⟨r, t⟩ :: historyFilter rest
    else historyFilter rest

/-- The `contents` mapping of the `user_text` handlers:
`history.map(h => ({ role: h.role === "assistant" ? "model" : "user", parts: [{text: h.text}] }))`. -/
def contentsOfHistory (history : List Turn) : List Content :=
  history.map (fun h => ⟨if h.role = "assistant" then "model" else "user", h.text⟩)

/-- The truthy-and-mismatched LMS-key test
(`msg.lmsKey && msg.lmsKey !== process.env.MY_LMS_API_KEY`). -/
def lmsKeyRejected (env : Env) (lmsKey : Option String) : Bool :=
  match lmsKey with
  | some k => k ≠ "" && env.myLmsApiKey ≠ some k
  | none => false

/-- The WebSocket message handler of `src/unnamed/part_006`
(lines 793–938), one incoming message at a time.  `scopeRes` is the
outcome of the `getStudentScope` fetch, `llmRes` of `callGeminiChat`
(after its internal model fallback), `tts` of `synthesizeWithGoogleTTS`
(`none` on failure), and `genId` the `crypto.randomUUID()` fallback. -/
def p6HandleMessage (env : Env) (scopeRes : Except String Scope)
    (llmRes : Except String String) (tts : Option (String × String))
    (genId : String) (conn : ConnState) (msg : ClientMsg) :
    ConnState × List ServerOut :=
  match msg with
  | .ping => (conn, [.pong])
  | .start email lmsKey history =>
    if lmsKeyRejected env lmsKey then
      ({ conn with closed := true }, [.errorMsg "Invalid LMS key."])
    else
      match scopeRes with
      | .ok scope =>
        let studentEmail := normalizeEmail email
        let enrolledCourseNames := String.intercalate ", " scope.courseNames
        let header := buildContextHeader studentEmail enrolledCourseNames scope.allowedPhrases
        let systemInstruction := env.baseSystemInstruction ++ "\n\n" ++ header
        let initialHistory := historyFilter history
        let sess : WsSession := ⟨studentEmail, lmsKey, systemInstruction, initialHistory⟩
        ({ conn with session := some sess }, [.ready])
      | .error e =>
        ({ conn with closed := true },
         [.errorMsg (jsOrStr e "Failed to start session")])
  | _ =>
    match conn.session with
    | none =>
      (conn, [.errorMsg "Session not initialized. Send a 'start' message first."])
    | some sess =>
      match msg with
      | .userText rawText requestId =>
        let text := String.mk (trimL rawText.data)
        if text = "" then (conn, []) else
        let rid :=
          match requestId with
          | some r => if r = "" then genId else r
          | none => genId
        let history1 := sess.history ++ [⟨"user", text⟩]
        let contents := contentsOfHistory history1
        let quizMode := isQuizRequest text
        let finalInstruction :=
          if quizMode then sess.systemInstruction ++ "\n\n" ++ env.quizModeInstruction
          else sess.systemInstruction
        let maxTokens := if quizMode then 2048 else 512
        let sent := clampContents contents 24
        match llmRes with
        | .ok aiText =>
          let history2 := history1 ++ [⟨"assistant", aiText⟩]
          ({ conn with session := some { sess with history := history2 } },
           [.llmCall finalInstruction sent maxTokens,
            .assistantText aiText rid tts])
        | .error e =>
          ({ conn with session := some { sess with history := history1 } },
           [.llmCall finalInstruction sent maxTokens,
            .errorMsg (jsOrStr e "Gemini error")])
      | .stop => ({ conn with closed := true }, [])
      | _ => (conn, [])

/-- The WebSocket message handler of `src/server.js` (lines 1143–1253):
no `ping` branch, no LMS-key check at `start` (the key is checked on each
`user_text` instead), `msg.history` ignored, and `callGeminiChat` sends
the contents without any clamping (its `maxOutputTokens` is fixed at 512). -/
def serverHandleMessage (env : Env) (scopeRes : Except String Scope)
    (llmRes : Except String String) (genId : String)
    (conn : ConnState) (msg : ClientMsg) : ConnState × List ServerOut :=
  match msg with
  | .start email lmsKey _ =>
    match scopeRes with
    | .ok scope =>
      let studentEmail := normalizeEmail email
      let enrolledCourseNames := String.intercalate ", " scope.courseNames
      let header := buildContextHeader studentEmail enrolledCourseNames scope.allowedPhrases
      let systemInstruction := env.baseSystemInstruction ++ "\n\n" ++ header
      ({ conn with session := some ⟨studentEmail, lmsKey, systemInstruction, []⟩ },
       [.ready])
    | .error e =>
      ({ conn with closed := true },
       [.errorMsg (jsOrStr e "Failed to start session")])
  | _ =>
    match conn.session with
    | none =>
      (conn, [.errorMsg "Session not initialized. Send a 'start' message first."])
    | some sess =>
      match msg with
      | .userText rawText requestId =>
        let text := String.mk (trimL rawText.data)
        if text = "" then (conn, []) else
        if lmsKeyRejected env sess.lmsKey then
          (conn, [.errorMsg "Invalid LMS key."])
        else
        let rid :=
          match requestId with
          | some r => if r = "" then genId else r
          | none => genId
        let history1 := sess.history ++ [⟨"user", text⟩]
        let contents := contentsOfHistory history1
        match llmRes with
        | .ok aiText =>
          let history2 := history1 ++ [⟨"assistant", aiText⟩]
          ({ conn with session := some { sess with history := history2 } },
           [.llmCall sess.systemInstruction contents 512,
            .assistantText aiText rid none])
        | .error e =>
          ({ conn with session := some { sess with history := history1 } },
           [.llmCall sess.systemInstruction contents 512,
            .errorMsg (jsOrStr e "Gemini error")])
      | .stop => ({ conn with closed := true }, [])
      | _ => (conn, [])

/-- `HISTORY_LIMIT` from `src/index.js` (line 47). -/
def HISTORY_LIMIT : Nat := 40

/-- The history update of `saveToHistory` from `src/index.js`
(lines 271–285): append the user and model turns, then keep only the last
`HISTORY_LIMIT` entries. -/
def saveToHistoryUpdate (current : List Content)
    (userMessage modelResponse : String) : List Content :=
  let history := current ++ [⟨"user", userMessage⟩, ⟨"model", modelResponse⟩]
  if history.length > HISTORY_LIMIT then
    history.drop (history.length - HISTORY_LIMIT)
  else history

end Praxis

namespace Praxis

/-! ### Output classifiers -/

def isLlmCall : ServerOut → Bool
  | .llmCall _ _ _ => true
  | _ => false

def isAssistantTextOut : ServerOut → Bool
  | .assistantText _ _ _ => true
  | _ => false

def isErrorOut : ServerOut → Bool
  | .errorMsg _ => true
  | _ => false

/-- Number of contents items in the first LLM call of an output list. -/
def firstLlmContentsLen : List ServerOut → Option Nat
  | [] => none
  | .llmCall _ c _ :: _ => some c.length
  | _ :: rest => firstLlmContentsLen rest

def msgIsStart : ClientMsg → Bool
  | .start _ _ _ => true
  | _ => false

def msgIsPing : ClientMsg → Bool
  | .ping => true
  | _ => false

/-! ### C3 -/

/-- Counterexample for C3: a session whose first `user_text` is still
unanswered (its user turn is in the history, no assistant turn yet)
receives a second `user_text`; the handler does not reject it with a
"busy" error — it makes another LLM call and answers it. -/
theorem c3_no_busy_rejection_counterexample :
    let conn : ConnState :=
      ⟨some ⟨"student@x.com", none, "SI", [⟨"user", "first question"⟩]⟩, false⟩
    let outs := (p6HandleMessage ⟨none, "BASE", "QUIZ"⟩ (.ok ⟨[], []⟩)
      (.ok "second answer") none "gen-id" conn
      (.userText "what is scrum" (some "req-2"))).2
    outs.any isLlmCall = true ∧ outs.any isAssistantTextOut = true ∧
    outs.all (fun o => !isErrorOut o) = true := by
  decide

/-- C3 (amended): the server maintains no busy flag.  Every `user_text`
with nonempty trimmed text arriving on an active session — regardless of
any outstanding request — is processed independently: the handler makes
exactly one LLM call (never a rejection instead) and then answers that
message with either an `assistant_text` or a vendor error.  The same holds
for the server.js variant once its per-message LMS-key check passes. -/
theorem c3_every_user_text_processed (env : Env) (scopeRes : Except String Scope)
    (llmRes : Except String String) (tts : Option (String × String))
    (genId : String) (conn : ConnState) (sess : WsSession)
    (rawText : String) (rid : Option String)
    (hsess : conn.session = some sess)
    (htext : String.mk (trimL rawText.data) ≠ "") :
    (∃ instr sent mt rest,
      (p6HandleMessage env scopeRes llmRes tts genId conn
        (.userText rawText rid)).2 = .llmCall instr sent mt :: rest ∧
      ((∃ t r a, rest = [.assistantText t r a]) ∨ (∃ e, rest = [.errorMsg e]))) ∧
    (lmsKeyRejected env sess.lmsKey = false →
      ∃ instr sent mt rest,
        (serverHandleMessage env scopeRes llmRes genId conn
          (.userText rawText rid)).2 = .llmCall instr sent mt :: rest ∧
        ((∃ t r a, rest = [.assistantText t r a]) ∨ (∃ e, rest = [.errorMsg e]))) := by
  constructor
  · cases llmRes with
    | ok aiText =>
      have heq : (p6HandleMessage env scopeRes (.ok aiText) tts genId conn
          (.userText rawText rid)).2 =
          .llmCall
            (if isQuizRequest (String.mk (trimL rawText.data)) then
              sess.systemInstruction ++ "\n\n" ++ env.quizModeInstruction
            else sess.systemInstruction)
            (clampContents (contentsOfHistory
              (sess.history ++ [⟨"user", String.mk (trimL rawText.data)⟩])) 24)
            (if isQuizRequest (String.mk (trimL rawText.data)) then 2048 else 512) ::
          [.assistantText aiText
            (match rid with | some r => if r = "" then genId else r | none => genId)
            tts] := by
        simp only [p6HandleMessage, hsess]
        rw [if_neg (by simpa using htext)]
      exact ⟨_, _, _, _, heq, Or.inl ⟨_, _, _, rfl⟩⟩
    | error e =>
      have heq : (p6HandleMessage env scopeRes (.error e) tts genId conn
          (.userText rawText rid)).2 =
          .llmCall
            (if isQuizRequest (String.mk (trimL rawText.data)) then
              sess.systemInstruction ++ "\n\n" ++ env.quizModeInstruction
            else sess.systemInstruction)
            (clampContents (contentsOfHistory
              (sess.history ++ [⟨"user", String.mk (trimL rawText.data)⟩])) 24)
            (if isQuizRequest (String.mk (trimL rawText.data)) then 2048 else 512) ::
          [.errorMsg (jsOrStr e "Gemini error")] := by
        simp only [p6HandleMessage, hsess]
        rw [if_neg (by simpa using htext)]
      exact ⟨_, _, _, _, heq, Or.inr ⟨_, rfl⟩⟩
  · intro hkey
    cases llmRes with
    | ok aiText =>
      have heq : (serverHandleMessage env scopeRes (.ok aiText) genId conn
          (.userText rawText rid)).2 =
          .llmCall sess.systemInstruction
            (contentsOfHistory
              (sess.history ++ [⟨"user", String.mk (trimL rawText.data)⟩])) 512 ::
          [.assistantText aiText
            (match rid with | some r => if r = "" then genId else r | none => genId)
            none] := by
        simp only [serverHandleMessage, hsess]
        rw [if_neg (by simpa using htext), if_neg (by simp [hkey])]
      exact ⟨_, _, _, _, heq, Or.inl ⟨_, _, _, rfl⟩⟩
    | error e =>
      have heq : (serverHandleMessage env scopeRes (.error e) genId conn
          (.userText rawText rid)).2 =
          .llmCall sess.systemInstruction
            (contentsOfHistory
              (sess.history ++ [⟨"user", String.mk (trimL rawText.data)⟩])) 512 ::
          [.errorMsg (jsOrStr e "Gemini error")] := by
        simp only [serverHandleMessage, hsess]
        rw [if_neg (by simpa using htext), if_neg (by simp [hkey])]
      exact ⟨_, _, _, _, heq, Or.inr ⟨_, rfl⟩⟩

/-- Witness for C3 (amended), at a concrete active session and message. -/
theorem c3_every_user_text_processed_witness :
    (p6HandleMessage ⟨none, "BASE", "QUIZ"⟩ (.ok ⟨[], []⟩) (.ok "answer") none
      "gen-id" ⟨some ⟨"s@x.com", none, "SI", []⟩, false⟩
      (.userText "hello there" (some "r1"))).2 =
      [.llmCall "SI" [⟨"user", "hello there"⟩] 512,
       .assistantText "answer" "r1" none] := by
  have h := (c3_every_user_text_processed ⟨none, "BASE", "QUIZ"⟩ (.ok ⟨[], []⟩)
    (.ok "answer") none "gen-id" ⟨some ⟨"s@x.com", none, "SI", []⟩, false⟩
    ⟨"s@x.com", none, "SI", []⟩ "hello there" (some "r1") rfl (by decide)).1
  obtain ⟨instr, sent, mt, rest, heq, -⟩ := h
  rw [heq]
  have : ServerOut.llmCall instr sent mt :: rest =
      [.llmCall "SI" [⟨"user", "hello there"⟩] 512,
       .assistantText "answer" "r1" none] := by
    rw [← heq]; decide
  exact this

end Praxis

namespace Praxis

/-! ### C6 -/

/-- C6: a session consisting of a well-formed `start` (LMS key accepted,
scope resolution succeeded, answered with `ready`) followed immediately by
`stop` reaches the closed state, and the server sends no `assistant_text`
at any point of that session. -/
theorem c6_start_stop_no_assistant_text (env : Env) (scope : Scope)
    (email : String) (lmsKey : Option String) (history : JsonList)
    (llm1 llm2 : Except String String) (tts1 tts2 : Option (String × String))
    (scope2 : Except String Scope) (genId1 genId2 : String)
    (hkey : lmsKeyRejected env lmsKey = false) :
    (p6HandleMessage env (.ok scope) llm1 tts1 genId1 ⟨none, false⟩
      (.start email lmsKey history)).2 = [.ready] ∧
    (p6HandleMessage env scope2 llm2 tts2 genId2
      (p6HandleMessage env (.ok scope) llm1 tts1 genId1 ⟨none, false⟩
        (.start email lmsKey history)).1 .stop).1.closed = true ∧
    ((p6HandleMessage env (.ok scope) llm1 tts1 genId1 ⟨none, false⟩
        (.start email lmsKey history)).2 ++
      (p6HandleMessage env scope2 llm2 tts2 genId2
        (p6HandleMessage env (.ok scope) llm1 tts1 genId1 ⟨none, false⟩
          (.start email lmsKey history)).1 .stop).2).all
      (fun o => !isAssistantTextOut o) = true := by
  have h1 : p6HandleMessage env (.ok scope) llm1 tts1 genId1 ⟨none, false⟩
      (.start email lmsKey history) =
      (⟨some ⟨normalizeEmail email, lmsKey,
          env.baseSystemInstruction ++ "\n\n" ++
            buildContextHeader (normalizeEmail email)
              (String.intercalate ", " scope.courseNames) scope.allowedPhrases,
          historyFilter history⟩, false⟩, [.ready]) := by
    simp [p6HandleMessage, hkey]
  rw [h1]
  simp [p6HandleMessage, isAssistantTextOut]

/-- Witness for C6, at a concrete environment, scope and start message. -/
theorem c6_start_stop_no_assistant_text_witness :
    (p6HandleMessage ⟨some "k", "BASE", "QUIZ"⟩
      (.ok ⟨["Data Analytics"], ["data analytics"]⟩) (.ok "hi") none "g1"
      ⟨none, false⟩ (.start "S@x.com" (some "k") .nil)).2 = [.ready] ∧
    (p6HandleMessage ⟨some "k", "BASE", "QUIZ"⟩ (.ok ⟨[], []⟩) (.ok "hi") none "g2"
      (p6HandleMessage ⟨some "k", "BASE", "QUIZ"⟩
        (.ok ⟨["Data Analytics"], ["data analytics"]⟩) (.ok "hi") none "g1"
        ⟨none, false⟩ (.start "S@x.com" (some "k") .nil)).1 .stop).1.closed = true :=
  have h := c6_start_stop_no_assistant_text ⟨some "k", "BASE", "QUIZ"⟩
    ⟨["Data Analytics"], ["data analytics"]⟩ "S@x.com" (some "k") .nil
    (.ok "hi") (.ok "hi") none none (.ok ⟨[], []⟩) "g1" "g2" (by decide)
  ⟨h.1, h.2.1⟩

/-! ### C7 -/

/-- Counterexample for C7: in the server.js variant the contents passed to
the vendor are not truncated at all — a session that has already exchanged
20 turns (40 history entries) sends 41 contents items on its next
`user_text`, exceeding both claimed bounds (24 and 40). -/
theorem c7_unbounded_contents_counterexample :
    firstLlmContentsLen
      (serverHandleMessage ⟨none, "BASE", "QUIZ"⟩ (.ok ⟨[], []⟩) (.ok "a") "g"
        ⟨some ⟨"s@x.com", none, "SI",
          (List.replicate 20 [Turn.mk "user" "u", Turn.mk "assistant" "a"]).flatten⟩,
          false⟩
        (.userText "one more question" (some "r"))).2 = some 41 ∧ 41 > 40 ∧ 41 > 24 := by
  refine ⟨by decide, by decide, by decide⟩

/-- C7 (amended): the part_006 variant clamps every vendor call's contents
to the most recent 24 items via `clampContents`, and index.js bounds the
stored history to the last `HISTORY_LIMIT = 40` entries on every save; in
both cases the kept window is a suffix (the most recent entries, in
order).  The server.js variant, however, passes the whole session history
unclamped (see the counterexample). -/
theorem c7_bounded_window (l : List Content) (cur : List Content)
    (u m : String) :
    (clampContents l 24).length = min l.length 24 ∧
    (clampContents l 24) <:+ l ∧
    (saveToHistoryUpdate cur u m).length ≤ HISTORY_LIMIT ∧
    (saveToHistoryUpdate cur u m) <:+ (cur ++ [⟨"user", u⟩, ⟨"model", m⟩]) := by
  refine ⟨?_, ?_, ?_, ?_⟩
  · by_cases h : l.length ≤ 24
    · simp [clampContents, h, Nat.min_eq_left h]
    · push_neg at h
      simp [clampContents, Nat.not_le.mpr h, List.length_drop,
        Nat.min_eq_right (le_of_lt h)]
      omega
  · by_cases h : l.length ≤ 24
    · simp [clampContents, h]
    · simp [clampContents, h]
      exact List.drop_suffix _ _
  · unfold saveToHistoryUpdate
    by_cases h : (cur ++ [⟨"user", u⟩, ⟨"model", m⟩] : List Content).length > HISTORY_LIMIT
    · simp only [if_pos h, List.length_drop]
      omega
    · simp only [if_neg h]
      omega
  · unfold saveToHistoryUpdate
    by_cases h : (cur ++ [⟨"user", u⟩, ⟨"model", m⟩] : List Content).length > HISTORY_LIMIT
    · simp only [if_pos h]
      exact List.drop_suffix _ _
    · simp only [if_neg h]
      exact List.suffix_refl _

end Praxis

namespace Praxis

/-! ### C10 -/

/-- Counterexample for C10: in the part_005/part_006 variants a `ping`
received before any successful `start` is answered with `pong` — not with
the "Session not initialized" error — so not every non-`start` message is
rejected. -/
theorem c10_ping_before_start_counterexample :
    (p6HandleMessage ⟨none, "BASE", "QUIZ"⟩ (.ok ⟨[], []⟩) (.ok "x") none "g"
      ⟨none, false⟩ .ping) = (⟨none, false⟩, [.pong]) ∧
    ServerOut.pong ≠
      ServerOut.errorMsg "Session not initialized. Send a 'start' message first." := by
  exact ⟨by decide, by decide⟩

/-- C10 (amended): before a successful `start`, any non-`start` message
other than `ping` (`ping` is answered with `pong` in the part_005/part_006
variants) is answered with exactly the error "Session not initialized.
Send a 'start' message first.", the connection state is unchanged, and no
LLM call is made; in the server.js variant, which has no `ping` branch,
this holds for every non-`start` message. -/
theorem c10_uninitialized_session_rejected (env : Env)
    (scopeRes : Except String Scope) (llmRes : Except String String)
    (tts : Option (String × String)) (genId : String) (closed : Bool)
    (msg : ClientMsg) :
    (msgIsStart msg = false → msgIsPing msg = false →
      p6HandleMessage env scopeRes llmRes tts genId ⟨none, closed⟩ msg =
        (⟨none, closed⟩,
         [.errorMsg "Session not initialized. Send a 'start' message first."])) ∧
    (msgIsStart msg = false →
      serverHandleMessage env scopeRes llmRes genId ⟨none, closed⟩ msg =
        (⟨none, closed⟩,
         [.errorMsg "Session not initialized. Send a 'start' message first."])) := by
  constructor
  · intro hstart hping
    cases msg with
    | start _ _ _ => simp [msgIsStart] at hstart
    | ping => simp [msgIsPing] at hping
    | userText t r => simp [p6HandleMessage]
    | stop => simp [p6HandleMessage]
    | other t => simp [p6HandleMessage]
  · intro hstart
    cases msg with
    | start _ _ _ => simp [msgIsStart] at hstart
    | ping => simp [serverHandleMessage]
    | userText t r => simp [serverHandleMessage]
    | stop => simp [serverHandleMessage]
    | other t => simp [serverHandleMessage]

/-- Witness for C10 (amended): a `user_text` before `start` gets exactly
the error in both variants, and even `ping` does in the server.js variant. -/
theorem c10_uninitialized_session_rejected_witness :
    p6HandleMessage ⟨none, "BASE", "QUIZ"⟩ (.ok ⟨[], []⟩) (.ok "x") none "g"
      ⟨none, false⟩ (.userText "hello" none) =
      (⟨none, false⟩,
       [.errorMsg "Session not initialized. Send a 'start' message first."]) ∧
    serverHandleMessage ⟨none, "BASE", "QUIZ"⟩ (.ok ⟨[], []⟩) (.ok "x") "g"
      ⟨none, false⟩ .ping =
      (⟨none, false⟩,
       [.errorMsg "Session not initialized. Send a 'start' message first."]) :=
  ⟨(c10_uninitialized_session_rejected ⟨none, "BASE", "QUIZ"⟩ (.ok ⟨[], []⟩)
      (.ok "x") none "g" false (.userText "hello" none)).1 (by decide) (by decide),
   (c10_uninitialized_session_rejected ⟨none, "BASE", "QUIZ"⟩ (.ok ⟨[], []⟩)
      (.ok "x") none "g" false .ping).2 (by decide)⟩

end Praxis

namespace Praxis

/-! ### The browser client (public/voice-app.js, first variant, lines 20–402)

The client's WebSocket state and handlers (`sendUserTextOverWS`,
`ws.onmessage`, `ws.onclose`, `startSession`), translated as transition
functions emitting effect lists.  DOM work is summarised by named effects;
`genId` stands for `makeRequestId()`. -/

/-- Messages the client sends over the socket. -/
inductive ClientWsMsg where
  | startMsg (student_email : String) (lmsKey : Option String)
  | userTextMsg (text : String) (requestId : String)
  | stopMsg
  deriving DecidableEq

/-- Observable client effects, in program order. -/
inductive ClientEffect where
  | logLine (s : String) (isError : Bool)
  | cancelSpeech
  | hideSpeakingIndicator
  | setUiState
  | addTranscriptLine (role text : String)
  | speak (text : String)
  | wsConnect
  | wsSend (m : ClientWsMsg)
  | scheduleReconnect (delayMs : Nat)
  deriving DecidableEq

/-- The client-side session state of the first voice-app.js variant. -/
structure ClientState where
  wsReady : Bool
  sessionActive : Bool
  isSpeaking : Bool
  conversationHistory : List Turn
  lastRequestId : Option String
  transcript : List (String × String)
  deriving DecidableEq

/-- A server→client message as the client parses it. -/
inductive ServerMsgToClient where
  | ready
  | assistantText (text : Option String) (requestId : Option String)
  | errorMsg (error : String)
  deriving DecidableEq

/-- The intro prompt sent by the `ready` branch. -/
def INTRO_PROMPT : String :=
  "Introduce yourself as Praxis, my online tutor at Pluralcode Academy, in 2-3 short spoken sentences. Do NOT use bullet points or markdown."

/-- `sendUserTextOverWS` (voice-app.js lines 245–259): refuse when the
socket is not ready, otherwise record the fresh request id and send. -/
def sendUserTextOverWS (s : ClientState) (text : String) (genId : String) :
    ClientState × List ClientEffect :=
  if !s.wsReady then
    (s, [.logLine "WebSocket not ready; cannot send message." true])
  else
    ({ s with lastRequestId := some genId },
     [.wsSend (.userTextMsg text genId)])

/-- `ws.onmessage` (voice-app.js lines 302–345).  The `assistant_text`
branch renders and speaks every reply; the incoming `requestId` is never
read (the source comments "Optionally ignore stale requestIds if you
want; here it's simple"). -/
def clientOnMessage (s : ClientState) (msg : ServerMsgToClient)
    (genId : String) : ClientState × List ClientEffect :=
  match msg with
  | .ready =>
    let introId := "intro-" ++ genId
    ({ s with wsReady := true, lastRequestId := some introId },
     [.logLine "Session ready." false, .setUiState,
      .wsSend (.userTextMsg INTRO_PROMPT introId)])
  | .assistantText text _requestId =>
    let aiText := text.getD ""
    ({ s with
        conversationHistory := s.conversationHistory ++ [⟨"assistant", aiText⟩],
        transcript := s.transcript ++ [("assistant", aiText)] },
     [.logLine "Praxis replied." false, .addTranscriptLine "assistant" aiText,
      .speak aiText])
  | .errorMsg e =>
    (s, [.logLine ("Backend error: " ++ e) true])

/-- `ws.onclose` (voice-app.js lines 353–365): tear the session down. -/
def clientOnClose (s : ClientState) : ClientState × List ClientEffect :=
  ({ s with wsReady := false, sessionActive := false, isSpeaking := false },
   [.logLine "WebSocket closed." false, .cancelSpeech,
    .hideSpeakingIndicator, .setUiState])

/-- `startSession` (voice-app.js lines 270–301), up to the WebSocket
construction: reset state and connect (the `onopen` callback then sends
the `start` message).  Empty email only logs an error. -/
def startSession (s : ClientState) (email : String) (_lmsKey : Option String) :
    ClientState × List ClientEffect :=
  if email = "" then
    (s, [.logLine "Please enter student email." true])
  else
    ({ wsReady := false, sessionActive := true, isSpeaking := s.isSpeaking,
       conversationHistory := [], lastRequestId := none, transcript := [] },
     [.logLine "Connecting WebSocket..." false, .wsConnect])

/-- Is this effect any form of reconnection or message (re)transmission? -/
def isReconnectish : ClientEffect → Bool
  | .wsConnect => true
  | .scheduleReconnect _ => true
  | .wsSend _ => true
  | _ => false

end Praxis

namespace Praxis

/-! ### C4 -/

/-- Counterexample for C4: with `lastRequestId = "req-new"`, an incoming
`assistant_text` carrying the stale id `"req-old"` is rendered anyway —
the transcript and the conversation history both grow — instead of being
discarded. -/
theorem c4_stale_reply_rendered_counterexample :
    (clientOnMessage
        ⟨true, true, false, [⟨"user", "question"⟩], some "req-new", [("user", "question")]⟩
        (.assistantText (some "stale answer") (some "req-old")) "g").1 =
      ⟨true, true, false,
        [⟨"user", "question"⟩, ⟨"assistant", "stale answer"⟩],
        some "req-new",
        [("user", "question"), ("assistant", "stale answer")]⟩ ∧
    (clientOnMessage
        ⟨true, true, false, [⟨"user", "question"⟩], some "req-new", [("user", "question")]⟩
        (.assistantText (some "stale answer") (some "req-old")) "g").2 =
      [.logLine "Praxis replied." false, .addTranscriptLine "assistant" "stale answer",
       .speak "stale answer"] := by
  exact ⟨by decide, by decide⟩

/-- C4 (amended): the client renders every incoming `assistant_text`
regardless of its `requestId` — the transcript and history are appended
unconditionally, and the handler's result does not depend on the carried
request id at all (`lastRequestId` is written on send but never compared). -/
theorem c4_assistant_text_always_rendered (s : ClientState)
    (text : Option String) (rid rid' : Option String) (genId : String) :
    clientOnMessage s (.assistantText text rid) genId =
      clientOnMessage s (.assistantText text rid') genId ∧
    (clientOnMessage s (.assistantText text rid) genId).1.transcript =
      s.transcript ++ [("assistant", text.getD "")] ∧
    (clientOnMessage s (.assistantText text rid) genId).1.conversationHistory =
      s.conversationHistory ++ [⟨"assistant", text.getD ""⟩] ∧
    (clientOnMessage s (.assistantText text rid) genId).1.lastRequestId =
      s.lastRequestId := by
  refine ⟨rfl, ?_, ?_, ?_⟩ <;> simp [clientOnMessage]

/-! ### C5 -/

/-- Counterexample for C5: an unexpected close while the logical session
is still active does not reconnect at all — the close handler only tears
the session down (no timer, no socket construction, no resent `start`),
so there is no 1s/2s/4s/8s/16s backoff sequence. -/
theorem c5_no_reconnect_counterexample :
    (clientOnClose
        ⟨true, true, true, [⟨"user", "q"⟩, ⟨"assistant", "a"⟩], some "r9",
          [("user", "q"), ("assistant", "a")]⟩) =
      (⟨false, false, false, [⟨"user", "q"⟩, ⟨"assistant", "a"⟩], some "r9",
          [("user", "q"), ("assistant", "a")]⟩,
       [.logLine "WebSocket closed." false, .cancelSpeech,
        .hideSpeakingIndicator, .setUiState]) ∧
    ((clientOnClose
        ⟨true, true, true, [⟨"user", "q"⟩, ⟨"assistant", "a"⟩], some "r9",
          [("user", "q"), ("assistant", "a")]⟩).2.all
      (fun e => !isReconnectish e)) = true := by
  exact ⟨by decide, by decide⟩

/-- C5 (amended): on any WebSocket close the client clears `wsReady` and
`sessionActive`, cancels speech, and performs no reconnection whatsoever:
it schedules no timer, opens no socket and sends nothing, keeping the
accumulated conversation history only in memory.  (No backoff counter or
attempt cap exists in the client.) -/
theorem c5_close_tears_down_without_reconnect (s : ClientState) :
    (clientOnClose s).1.wsReady = false ∧
    (clientOnClose s).1.sessionActive = false ∧
    (clientOnClose s).1.conversationHistory = s.conversationHistory ∧
    (clientOnClose s).2 =
      [.logLine "WebSocket closed." false, .cancelSpeech,
       .hideSpeakingIndicator, .setUiState] ∧
    ∀ e ∈ (clientOnClose s).2, isReconnectish e = false := by
  refine ⟨rfl, rfl, rfl, rfl, ?_⟩
  intro e he
  simp only [clientOnClose, List.mem_cons, List.mem_singleton] at he
  rcases he with h | h | h | h | h
  · subst h; rfl
  · subst h; rfl
  · subst h; rfl
  · subst h; rfl
  · simp at h

end Praxis

namespace Praxis

/-! ### Speech sanitisation (voice-app.js lines 76–100, part_006 lines 651–688)

Both `sanitizeForSpeech` variants, translated step by step.  Every global
regex replacement is a left-to-right scan; scanners that skip more than
one character per step take a structural `fuel` argument set to the input
length (each step consumes at least one character, so the fuel never runs
out on the initial call). -/

/-- Generic `/[...]+/g → " "` replacement: a maximal run of characters of
`inSet` becomes one space. -/
def runReplaceGo (inSet : Char → Bool) : Nat → List Char → List Char
  | 0, _ => []
  | _, [] => []
  | fuel + 1, c :: rest =>
    if inSet c then ' ' :: runReplaceGo inSet fuel (rest.dropWhile inSet)
    else c :: runReplaceGo inSet fuel rest

def runReplace (inSet : Char → Bool) (l : List Char) : List Char :=
  runReplaceGo inSet l.length l

/-- Generic `/[...]{2,}/g → " "` replacement: a run of two or more becomes
one space, a single occurrence is kept. -/
def run2Go (inSet : Char → Bool) : Nat → List Char → List Char
  | 0, _ => []
  | _, [] => []
  | fuel + 1, c :: rest =>
    if inSet c && (match rest.head? with | some d => inSet d | none => false) then
      ' ' :: run2Go inSet fuel (rest.dropWhile inSet)
    else c :: run2Go inSet fuel rest

def run2Replace (inSet : Char → Bool) (l : List Char) : List Char :=
  run2Go inSet l.length l

/-- `t.search(/(links:|resources:)/i)` + `slice(0, idx)`: keep everything
before the first case-insensitive `links:` / `resources:`. -/
def linksCut : List Char → List Char
  | [] => []
  | c :: rest =>
    if isPreCI "links:".data (c :: rest) || isPreCI "resources:".data (c :: rest) then []
    else c :: linksCut rest

/-- The length of the match of `/https?:\/\/\S+/i` anchored at the head:
the scheme (case-insensitive) followed by at least one non-space
character; a scheme followed by whitespace or the end does not match. -/
def urlMatchLen (l : List Char) : Option Nat :=
  if isPreCI "https://".data l then
    let k := ((l.drop 8).takeWhile (fun x => !isJsWs x)).length
    if k > 0 then some (8 + k) else none
  else if isPreCI "http://".data l then
    let k := ((l.drop 7).takeWhile (fun x => !isJsWs x)).length
    if k > 0 then some (7 + k) else none
  else none

/-- `.replace(/https?:\/\/\S+/gi, " ")`, scanning left to right. -/
def stripUrlsGo : Nat → List Char → List Char
  | 0, _ => []
  | _, [] => []
  | fuel + 1, c :: rest =>
    match urlMatchLen (c :: rest) with
    | some n => ' ' :: stripUrlsGo fuel (rest.drop (n - 1))
    | none => c :: stripUrlsGo fuel rest

def stripUrls (l : List Char) : List Char := stripUrlsGo l.length l

/-- `.replace(/\bExcel\b/gi, "Microsoft Excel")`: `wordBefore` tracks
whether the previous original character was a word character (the two
`\b`s); after a match it is true (`l` is a word character). -/
def excelGo : Nat → Bool → List Char → List Char
  | 0, _, _ => []
  | _, _, [] => []
  | fuel + 1, wordBefore, c :: rest =>
    if !wordBefore && isPreCI "excel".data (c :: rest) &&
        !isWordCharO (((c :: rest).drop 5).head?) then
      "Microsoft Excel".data ++ excelGo fuel true (rest.drop 4)
    else c :: excelGo fuel (isWordChar c) rest

def excelFix (l : List Char) : List Char := excelGo l.length false l

/-- `/\s{2,}/g → " "` (whitespace collapsing). -/
def collapseWs (l : List Char) : List Char := run2Replace isJsWs l

end Praxis

namespace Praxis
namespace VoiceApp

/-- The markdown character class `[*_`>#\-]` of the client sanitiser. -/
def mdChar (c : Char) : Bool :=
  c = '*' || c = '_' || c = Char.ofNat 96 || c = '>' || c = '#' || c = '-'

/-- `sanitizeForSpeech` from `src/public/voice-app.js` (lines 76–100):
strip markdown runs, cut at `Links:`/`Resources:`, remove raw URLs, fix
the pronunciation of `Excel`, collapse whitespace, trim. -/
def sanitizeForSpeech (fullText : String) : String :=
  if fullText = "" then "" else
  String.mk (trimL (collapseWs (excelFix (stripUrls (linksCut
    (runReplace mdChar fullText.data))))))

end VoiceApp
end Praxis

namespace Praxis
namespace Part006

/-- A QUIZ:/VIDEO:/ARTICLE: line filter step: `split(/\r?\n/)`. -/
def splitLinesGo (acc : List Char) : List Char → List (List Char)
  | [] => [acc.reverse]
  | '\r' :: '\n' :: rest => acc.reverse :: splitLinesGo [] rest
  | '\n' :: rest => acc.reverse :: splitLinesGo [] rest
  | c :: rest => splitLinesGo (c :: acc) rest

/-- Keep a line unless its trimmed upper-cased form starts with `QUIZ:`,
`VIDEO:` or `ARTICLE:`. -/
def keepLine (line : List Char) : Bool :=
  let u := upperL (trimL line)
  !(isPre "QUIZ:".data u || isPre "VIDEO:".data u || isPre "ARTICLE:".data u)

/-- The line filter + `join(" ")` of the server sanitiser. -/
def lineFilter (l : List Char) : List Char :=
  List.intercalate [' '] ((splitLinesGo [] l).filter keepLine)

/-- `.replace(/TAG:\s*{[^}]*}/gi, " ")` for `TAG` ∈ QUIZ/VIDEO/ARTICLE:
the tag, any whitespace, an opening brace, non-brace content and a
mandatory closing brace. -/
def tagJsonStripGo (tag : List Char) : Nat → List Char → List Char
  | 0, _ => []
  | _, [] => []
  | fuel + 1, c :: rest =>
    let l := c :: rest
    let fallback := fun (_ : Unit) => c :: tagJsonStripGo tag fuel rest
    if isPreCI tag l then
      let afterTag := l.drop tag.length
      let w := (afterTag.takeWhile isJsWs).length
      let afterWs := afterTag.drop w
      if afterWs.head? = some (Char.ofNat 123) then
        let inner := (afterWs.drop 1).takeWhile (fun x => x ≠ Char.ofNat 125)
        let after := (afterWs.drop 1).drop inner.length
        match after.head? with
        | some _ => ' ' :: tagJsonStripGo tag fuel (after.drop 1)
        | none => fallback ()
      else fallback ()
    else fallback ()

def tagJsonStrip (tag : List Char) (l : List Char) : List Char :=
  tagJsonStripGo tag l.length l

/-- The TLD alternation `(com|net|org|io|ai|edu|co|dev|info)`, tried in
source order; returns the matched length. -/
def tldMatch (l : List Char) : Option Nat :=
  if isPreCI "com".data l then some 3
  else if isPreCI "net".data l then some 3
  else if isPreCI "org".data l then some 3
  else if isPreCI "io".data l then some 2
  else if isPreCI "ai".data l then some 2
  else if isPreCI "edu".data l then some 3
  else if isPreCI "co".data l then some 2
  else if isPreCI "dev".data l then some 3
  else if isPreCI "info".data l then some 4
  else none

/-- Backtracking search for `[^\s]+\.(tld)(\/[^\s]*)?` anchored at the
head: the greedy `[^\s]+` tries length `k` from the non-space run length
downward until a `.` + TLD follows; the optional `\/[^\s]*` then extends
the match. -/
def domainSearch (l : List Char) : Nat → Option Nat
  | 0 => none
  | k + 1 =>
    if (l.drop (k + 1)).head? = some '.' then
      match tldMatch (l.drop (k + 2)) with
      | some tl =>
        let rest := l.drop (k + 2 + tl)
        let slashLen :=
          if rest.head? = some '/' then
            1 + ((rest.drop 1).takeWhile (fun x => !isJsWs x)).length
          else 0
        some (k + 2 + tl + slashLen)
      | none => domainSearch l k
    else domainSearch l k

/-- `.replace(/\b[^\s]+\.(com|net|org|io|ai|edu|co|dev|info)(\/[^\s]*)?/gi, " ")`.
`prevWord` tracks the word-character status of the previous original
character for the `\b`. -/
def domainStripGo : Nat → Bool → List Char → List Char
  | 0, _, _ => []
  | _, _, [] => []
  | fuel + 1, prevWord, c :: rest =>
    if (prevWord != isWordChar c) && !isJsWs c then
      match domainSearch (c :: rest) ((c :: rest).takeWhile (fun x => !isJsWs x)).length with
      | some n =>
        ' ' :: domainStripGo fuel (isWordCharO ((c :: rest).get? (n - 1))) (rest.drop (n - 1))
      | none => c :: domainStripGo fuel (isWordChar c) rest
    else c :: domainStripGo fuel (isWordChar c) rest

def domainStrip (l : List Char) : List Char := domainStripGo l.length false l

/-- `.replace(/\bwww\.[^\s]+/gi, " ")`. -/
def wwwStripGo : Nat → Bool → List Char → List Char
  | 0, _, _ => []
  | _, _, [] => []
  | fuel + 1, prevWord, c :: rest =>
    if !prevWord && isPreCI "www.".data (c :: rest) &&
        (((c :: rest).drop 4).takeWhile (fun x => !isJsWs x)).length > 0 then
      let n := 4 + (((c :: rest).drop 4).takeWhile (fun x => !isJsWs x)).length
      ' ' :: wwwStripGo fuel (isWordCharO ((c :: rest).get? (n - 1))) (rest.drop (n - 1))
    else c :: wwwStripGo fuel (isWordChar c) rest

def wwwStrip (l : List Char) : List Char := wwwStripGo l.length false l

/-- `.replace(/`[^`]*`/g, " ")`: backtick-delimited spans. -/
def backtickStripGo : Nat → List Char → List Char
  | 0, _ => []
  | _, [] => []
  | fuel + 1, c :: rest =>
    if c = Char.ofNat 96 then
      let inner := rest.takeWhile (fun x => x ≠ Char.ofNat 96)
      match (rest.drop inner.length).head? with
      | some _ => ' ' :: backtickStripGo fuel (rest.drop (inner.length + 1))
      | none => c :: backtickStripGo fuel rest
    else c :: backtickStripGo fuel rest

def backtickStrip (l : List Char) : List Char := backtickStripGo l.length l

/-- `[*_>#\-]` (note: unlike the client variant, no backtick). -/
def symChar1 (c : Char) : Bool :=
  c = '*' || c = '_' || c = '>' || c = '#' || c = '-'

/-- `[•~_=^]`. -/
def symChar2 (c : Char) : Bool :=
  c = Char.ofNat 0x2022 || c = '~' || c = '_' || c = '=' || c = '^'

/-- `[\[\]\(\)\{\}<>\/\\|]` — brackets, braces, angle brackets, slashes
and pipes. -/
def bracketChar (c : Char) : Bool :=
  c = '[' || c = ']' || c = '(' || c = ')' ||
  c = Char.ofNat 123 || c = Char.ofNat 125 ||
  c = '<' || c = '>' || c = '/' || c = '\\' || c = '|'

/-- `[;:]`. -/
def punctChar (c : Char) : Bool := c = ';' || c = ':'

/-- `sanitizeForSpeech` from `src/unnamed/part_006` (lines 651–688). -/
def sanitizeForSpeech (text : String) : String :=
  if text = "" then "" else
  String.mk (trimL (collapseWs (excelFix (run2Replace punctChar
    (runReplace bracketChar (runReplace symChar2 (runReplace symChar1
      (backtickStrip (wwwStrip (domainStrip (stripUrls (linksCut
        (tagJsonStrip "ARTICLE:".data (tagJsonStrip "VIDEO:".data
          (tagJsonStrip "QUIZ:".data (lineFilter text.data))))))))))))))))

end Part006
end Praxis

namespace Praxis

/-! ### Scheme-occurrence predicates and lemmas (for C9) -/

/-- Does the list start with a non-whitespace character? -/
def nonWsHead (l : List Char) : Bool :=
  match l.head? with
  | some c => !isJsWs c
  | none => false

/-- A "bad" position: a case-insensitive URL scheme immediately followed
by a non-whitespace character (i.e. a raw URL with content after the
scheme). -/
def badAt (l : List Char) : Bool :=
  (isPreCI "https://".data l && nonWsHead (l.drop 8)) ||
  (isPreCI "http://".data l && nonWsHead (l.drop 7))

/-- No bad position anywhere in the list. -/
def noBad : List Char → Bool
  | [] => true
  | c :: rest => !badAt (c :: rest) && noBad rest

/-- Any case-insensitive occurrence of `http://` or `https://`. -/
def hasSchemeSub : List Char → Bool
  | [] => false
  | c :: rest =>
    isPreCI "http://".data (c :: rest) || isPreCI "https://".data (c :: rest) ||
    hasSchemeSub rest

theorem char_toNat_ofNat (n : Nat) (h : Nat.isValidChar n) :
    (Char.ofNat n).toNat = n := by
  simp only [Char.ofNat, dif_pos h]
  rfl

/-- Lower-casing does not change whitespace-ness. -/
theorem isJsWs_lc (c : Char) : isJsWs (lc c) = isJsWs c := by
  unfold lc
  by_cases h : 'A' ≤ c ∧ c ≤ 'Z'
  · rw [if_pos h]
    have hle : 65 ≤ c.toNat ∧ c.toNat ≤ 90 := by
      obtain ⟨h1, h2⟩ := h
      exact ⟨h1, h2⟩
    have hv : Nat.isValidChar (c.toNat + 32) := Or.inl (by omega)
    have ht := char_toNat_ofNat (c.toNat + 32) hv
    simp only [isJsWs, ht]
    obtain ⟨h1, h2⟩ := hle
    rw [Bool.eq_iff_iff]
    simp only [Bool.or_eq_true, Bool.and_eq_true, decide_eq_true_eq]
    constructor <;> intro hx <;> omega
  · rw [if_neg h]

theorem noBad_iff (l : List Char) :
    noBad l = true ↔ ∀ i, badAt (l.drop i) = false := by
  induction l with
  | nil =>
    simp only [noBad, List.drop_nil, true_iff]
    intro i; decide
  | cons c rest ih =>
    simp only [noBad, Bool.and_eq_true, Bool.not_eq_true', ih]
    constructor
    · rintro ⟨h0, hrest⟩ i
      cases i with
      | zero => exact h0
      | succ j => simpa using hrest j
    · intro h
      exact ⟨h 0, fun j => by simpa using h (j + 1)⟩

theorem isPre_take (pat : List Char) :
    ∀ (l : List Char) (n : Nat), isPre pat (l.take n) = true → isPre pat l = true := by
  induction pat with
  | nil => intro l n _; rfl
  | cons x ps ih =>
    intro l n h
    cases l with
    | nil => simpa [isPre, List.take_nil] using h
    | cons c rest =>
      cases n with
      | zero => simp [isPre] at h
      | succ m =>
        simp only [List.take_succ_cons, isPre, Bool.and_eq_true] at h ⊢
        exact ⟨h.1, ih rest m h.2⟩

theorem nonWsHead_take (l : List Char) (m : Nat)
    (h : nonWsHead (l.take m) = true) : nonWsHead l = true := by
  cases l with
  | nil => simpa [nonWsHead] using h
  | cons c rest =>
    cases m with
    | zero => simp [nonWsHead] at h
    | succ k => simpa [nonWsHead] using h

theorem badAt_take (l : List Char) (n : Nat)
    (h : badAt (l.take n) = true) : badAt l = true := by
  simp only [badAt, Bool.or_eq_true, Bool.and_eq_true] at h ⊢
  rcases h with ⟨h1, h2⟩ | ⟨h1, h2⟩
  · refine Or.inl ⟨?_, ?_⟩
    · unfold isPreCI at h1 ⊢
      rw [show lowerL (l.take n) = (lowerL l).take n from List.map_take .. ▸ rfl] at h1
      exact isPre_take _ _ _ h1
    · rw [List.drop_take] at h2
      exact nonWsHead_take _ _ h2
  · refine Or.inr ⟨?_, ?_⟩
    · unfold isPreCI at h1 ⊢
      rw [show lowerL (l.take n) = (lowerL l).take n from List.map_take .. ▸ rfl] at h1
      exact isPre_take _ _ _ h1
    · rw [List.drop_take] at h2
      exact nonWsHead_take _ _ h2

theorem noBad_take (l : List Char) (n : Nat) (h : noBad l = true) :
    noBad (l.take n) = true := by
  rw [noBad_iff] at h ⊢
  intro i
  by_contra hbad
  have hb : badAt ((l.take n).drop i) = true := by
    cases hx : badAt ((l.take n).drop i) with
    | true => rfl
    | false => exact absurd hx hbad
  rw [List.drop_take] at hb
  exact absurd (badAt_take _ _ hb) (by simp [h i])

theorem noBad_drop (l : List Char) (n : Nat) (h : noBad l = true) :
    noBad (l.drop n) = true := by
  rw [noBad_iff] at h ⊢
  intro i
  rw [List.drop_drop]
  simpa [Nat.add_comm] using h (i + n)

theorem noBad_prefix {l₁ l₂ : List Char} (hp : l₁ <+: l₂)
    (h : noBad l₂ = true) : noBad l₁ = true := by
  obtain ⟨t, ht⟩ := hp
  have : l₁ = l₂.take l₁.length := by
    rw [← ht, List.take_left]
  rw [this]
  exact noBad_take _ _ h

theorem noBad_suffix {l₁ l₂ : List Char} (hs : l₁ <:+ l₂)
    (h : noBad l₂ = true) : noBad l₁ = true := by
  obtain ⟨t, ht⟩ := hs
  have : l₁ = l₂.drop t.length := by
    rw [← ht, List.drop_left]
  rw [this]
  exact noBad_drop _ _ h

theorem noBad_trimL (l : List Char) (h : noBad l = true) :
    noBad (trimL l) = true := by
  unfold trimL
  have h1 : noBad (l.dropWhile isJsWs) = true :=
    noBad_suffix (List.dropWhile_suffix _) h
  refine noBad_prefix ?_ h1
  have hsuf : ((l.dropWhile isJsWs).reverse.dropWhile isJsWs) <:+
      (l.dropWhile isJsWs).reverse := List.dropWhile_suffix _
  have h2 := (List.reverse_prefix).mpr hsuf
  simpa using h2

end Praxis

namespace Praxis

theorem nonWsHead_takeWhile_pos (l : List Char) (h : nonWsHead l = true) :
    0 < (l.takeWhile (fun x => !isJsWs x)).length := by
  cases l with
  | nil => simp [nonWsHead] at h
  | cons c rest =>
    simp only [nonWsHead, List.head?_cons, Bool.not_eq_true'] at h
    simp [List.takeWhile_cons, h]

theorem badAt_cons_not_h (c : Char) (l : List Char) (h : lc c ≠ 'h') :
    badAt (c :: l) = false := by
  have hs : lowerL "https://".data = 'h' :: "ttps://".data := by decide
  have ht : lowerL "http://".data = 'h' :: "ttp://".data := by decide
  have hc : decide ('h' = lc c) = false := by simp [Ne.symm h]
  simp only [badAt, isPreCI]
  rw [hs, ht]
  simp only [lowerL, List.map_cons, isPre]
  simp [hc]

theorem noBad_tail (c : Char) (rest : List Char) (h : noBad (c :: rest) = true) :
    noBad rest = true := by
  simp only [noBad, Bool.and_eq_true] at h
  exact h.2

theorem noBad_append_no_h (ins : List Char) (t : List Char)
    (hins : ∀ ch ∈ ins, lc ch ≠ 'h') (h : noBad t = true) :
    noBad (ins ++ t) = true := by
  induction ins with
  | nil => simpa using h
  | cons i ins' ih =>
    simp only [List.cons_append, noBad, Bool.and_eq_true, Bool.not_eq_true']
    exact ⟨badAt_cons_not_h _ _ (hins i (by simp)),
      ih (fun ch hch => hins ch (by simp [hch]))⟩

/-- Copy-back through the URL stripper: a prefix made of non-whitespace
characters, followed by a non-whitespace character, in the output, was
already present at the head of the input (every replacement emits a
space). -/
theorem stripUrls_copyback (patLow : List Char)
    (hpat : ∀ x ∈ patLow, isJsWs x = false) :
    ∀ (fuel : Nat) (m : List Char),
    isPre patLow (lowerL (stripUrlsGo fuel m)) = true →
    nonWsHead ((stripUrlsGo fuel m).drop patLow.length) = true →
    isPre patLow (lowerL m) = true ∧ nonWsHead (m.drop patLow.length) = true := by
  induction patLow with
  | nil =>
    intro fuel m _ h2
    refine ⟨rfl, ?_⟩
    match fuel, m with
    | 0, _ => simp [stripUrlsGo, nonWsHead] at h2
    | _ + 1, [] => simp [stripUrlsGo, nonWsHead] at h2
    | fuel + 1, c :: rest =>
      simp only [stripUrlsGo] at h2
      cases hm : urlMatchLen (c :: rest) with
      | some n =>
        rw [hm] at h2
        simp [nonWsHead, isJsWs] at h2
      | none =>
        rw [hm] at h2
        simpa [nonWsHead] using h2
  | cons x ps ih =>
    intro fuel m h1 h2
    match fuel, m with
    | 0, _ => simp [stripUrlsGo, isPre] at h1
    | _ + 1, [] => simp [stripUrlsGo, isPre, lowerL] at h1
    | fuel + 1, c :: rest =>
      simp only [stripUrlsGo] at h1 h2
      cases hm : urlMatchLen (c :: rest) with
      | some n =>
        rw [hm] at h1
        simp only [lowerL, List.map_cons, isPre, Bool.and_eq_true,
          decide_eq_true_eq] at h1
        have : isJsWs x = true := by
          rw [h1.1]; decide
        rw [hpat x (by simp)] at this
        exact absurd this (by simp)
      | none =>
        rw [hm] at h1 h2
        simp only [lowerL, List.map_cons, isPre, Bool.and_eq_true,
          decide_eq_true_eq] at h1
        have h2' : nonWsHead ((stripUrlsGo fuel rest).drop ps.length) = true := by
          simpa using h2
        obtain ⟨ha, hb⟩ := ih (fun y hy => hpat y (by simp [hy])) fuel rest h1.2 h2'
        refine ⟨?_, by simpa using hb⟩
        simp only [lowerL, List.map_cons, isPre, Bool.and_eq_true,
          decide_eq_true_eq]
        exact ⟨h1.1, ha⟩

theorem isPre_compat : ∀ (p₁ p₂ l : List Char), isPre p₁ l = true →
    isPre p₂ l = true → isPre p₁ p₂ = true ∨ isPre p₂ p₁ = true := by
  intro p₁
  induction p₁ with
  | nil => intro p₂ l _ _; left; rfl
  | cons a as ih =>
    intro p₂ l h1 h2
    cases p₂ with
    | nil => right; rfl
    | cons b bs =>
      cases l with
      | nil => simp [isPre] at h1
      | cons c cs =>
        simp only [isPre, Bool.and_eq_true, decide_eq_true_eq] at h1 h2
        obtain ⟨rfl, h1'⟩ := h1
        obtain ⟨rfl, h2'⟩ := h2
        rcases ih bs cs h1' h2' with h | h
        · left; simp [isPre, h]
        · right; simp [isPre, h]

/-- The URL stripper's output has no scheme followed by a non-whitespace
character anywhere. -/
theorem noBad_stripUrlsGo : ∀ (fuel : Nat) (m : List Char),
    noBad (stripUrlsGo fuel m) = true := by
  have hs : lowerL "https://".data = 'h' :: "ttps://".data := by decide
  have ht : lowerL "http://".data = 'h' :: "ttp://".data := by decide
  intro fuel
  induction fuel with
  | zero => intro m; cases m <;> rfl
  | succ fuel ih =>
    intro m
    cases m with
    | nil => rfl
    | cons c rest =>
      simp only [stripUrlsGo]
      cases hm : urlMatchLen (c :: rest) with
      | some n =>
        simp only [noBad, Bool.and_eq_true, Bool.not_eq_true']
        exact ⟨badAt_cons_not_h _ _ (by decide), ih _⟩
      | none =>
        simp only [noBad, Bool.and_eq_true, Bool.not_eq_true']
        refine ⟨?_, ih rest⟩
        by_contra hbad
        have hb : badAt (c :: stripUrlsGo fuel rest) = true :=
          Bool.not_eq_false _ ▸ (Bool.of_not_eq_false hbad)
        simp only [badAt, Bool.or_eq_true, Bool.and_eq_true] at hb
        rcases hb with ⟨h1, h2⟩ | ⟨h1, h2⟩
        · -- apparent https occurrence at the head of the output
          simp only [isPreCI] at h1
          rw [hs] at h1
          simp only [lowerL, List.map_cons, isPre, Bool.and_eq_true,
            decide_eq_true_eq] at h1
          obtain ⟨hc, hpre⟩ := h1
          have h2' : nonWsHead ((stripUrlsGo fuel rest).drop 7) = true := by
            simpa using h2
          obtain ⟨ha, hb'⟩ := stripUrls_copyback "ttps://".data (by decide) fuel rest
            (by simpa [lowerL] using hpre)
            (by rw [show ("ttps://".data).length = 7 from by decide]; exact h2')
          have hb7 : nonWsHead (rest.drop 7) = true := by
            rw [show ("ttps://".data).length = 7 from by decide] at hb'
            exact hb'
          have hlen := nonWsHead_takeWhile_pos _ hb7
          have hsome : urlMatchLen (c :: rest) ≠ none := by
            unfold urlMatchLen
            have hhttps : isPreCI "https://".data (c :: rest) = true := by
              simp only [isPreCI]
              rw [hs]
              simp only [lowerL, List.map_cons, isPre, Bool.and_eq_true,
                decide_eq_true_eq]
              exact ⟨hc, by simpa [lowerL] using ha⟩
            rw [if_pos hhttps]
            have hk : 0 < (((c :: rest).drop 8).takeWhile (fun x => !isJsWs x)).length := by
              rw [show (c :: rest).drop 8 = rest.drop 7 from by simp]
              exact hlen
            simp only [gt_iff_lt, hk, if_pos]
            simp
          exact hsome hm
        · -- apparent http occurrence at the head of the output
          simp only [isPreCI] at h1
          rw [ht] at h1
          simp only [lowerL, List.map_cons, isPre, Bool.and_eq_true,
            decide_eq_true_eq] at h1
          obtain ⟨hc, hpre⟩ := h1
          have h2' : nonWsHead ((stripUrlsGo fuel rest).drop 6) = true := by
            simpa using h2
          obtain ⟨ha, hb'⟩ := stripUrls_copyback "ttp://".data (by decide) fuel rest
            (by simpa [lowerL] using hpre)
            (by rw [show ("ttp://".data).length = 6 from by decide]; exact h2')
          have hb6 : nonWsHead (rest.drop 6) = true := by
            rw [show ("ttp://".data).length = 6 from by decide] at hb'
            exact hb'
          have hlen := nonWsHead_takeWhile_pos _ hb6
          have hnotS : isPreCI "https://".data (c :: rest) = false := by
            cases hx : isPreCI "https://".data (c :: rest) with
            | false => rfl
            | true =>
              exfalso
              simp only [isPreCI] at hx
              rw [hs] at hx
              simp only [lowerL, List.map_cons, isPre, Bool.and_eq_true,
                decide_eq_true_eq] at hx
              have hcompat := isPre_compat "ttps://".data "ttp://".data
                (List.map lc rest) (by simpa [lowerL] using hx.2)
                (by simpa [lowerL] using ha)
              rcases hcompat with h | h <;> exact absurd h (by decide)
          have hsome : urlMatchLen (c :: rest) ≠ none := by
            unfold urlMatchLen
            rw [if_neg (by simp [hnotS])]
            have hhttp : isPreCI "http://".data (c :: rest) = true := by
              simp only [isPreCI]
              rw [ht]
              simp only [lowerL, List.map_cons, isPre, Bool.and_eq_true,
                decide_eq_true_eq]
              exact ⟨hc, by simpa [lowerL] using ha⟩
            rw [if_pos hhttp]
            have hk : 0 < (((c :: rest).drop 7).takeWhile (fun x => !isJsWs x)).length := by
              rw [show (c :: rest).drop 7 = rest.drop 6 from by simp]
              exact hlen
            simp only [gt_iff_lt, hk, if_pos]
            simp
          exact hsome hm

end Praxis

namespace Praxis

/-- Copy-back through the Excel replacer: its replacement text starts with
`M`, so a non-`'m'`, non-whitespace pattern followed by a non-whitespace
character in the output comes from the head of the input. -/
theorem excel_copyback (patLow : List Char)
    (hpat : ∀ x ∈ patLow, isJsWs x = false ∧ x ≠ 'm') :
    ∀ (fuel : Nat) (wb : Bool) (m : List Char),
    isPre patLow (lowerL (excelGo fuel wb m)) = true →
    nonWsHead ((excelGo fuel wb m).drop patLow.length) = true →
    isPre patLow (lowerL m) = true ∧ nonWsHead (m.drop patLow.length) = true := by
  induction patLow with
  | nil =>
    intro fuel wb m _ h2
    refine ⟨rfl, ?_⟩
    match fuel, m with
    | 0, _ => simp [excelGo, nonWsHead] at h2
    | _ + 1, [] => simp [excelGo, nonWsHead] at h2
    | fuel + 1, c :: rest =>
      simp only [excelGo] at h2
      by_cases hcond : (!wb && isPreCI "excel".data (c :: rest) &&
          !isWordCharO (((c :: rest).drop 5).head?)) = true
      · rw [if_pos hcond] at h2
        simp only [Bool.and_eq_true] at hcond
        have hce : lc c = 'e' := by
          have := hcond.1.2
          simp only [isPreCI] at this
          rw [show lowerL "excel".data = "excel".data from by decide] at this
          simp only [lowerL, List.map_cons, isPre, Bool.and_eq_true,
            decide_eq_true_eq] at this
          exact this.1.symm
        have : isJsWs c = false := by
          rw [← isJsWs_lc, hce]; decide
        simp [nonWsHead, this]
      · rw [if_neg hcond] at h2
        simpa [nonWsHead] using h2
  | cons x ps ih =>
    intro fuel wb m h1 h2
    match fuel, m with
    | 0, _ => simp [excelGo, isPre] at h1
    | _ + 1, [] => simp [excelGo, isPre, lowerL] at h1
    | fuel + 1, c :: rest =>
      simp only [excelGo] at h1 h2
      by_cases hcond : (!wb && isPreCI "excel".data (c :: rest) &&
          !isWordCharO (((c :: rest).drop 5).head?)) = true
      · rw [if_pos hcond] at h1
        simp only [List.cons_append, lowerL, List.map_cons, isPre,
          Bool.and_eq_true, decide_eq_true_eq] at h1
        have : x = 'm' := by rw [h1.1]; decide
        exact absurd this (hpat x (by simp)).2
      · rw [if_neg hcond] at h1 h2
        simp only [lowerL, List.map_cons, isPre, Bool.and_eq_true,
          decide_eq_true_eq] at h1
        have h2' : nonWsHead ((excelGo fuel (isWordChar c) rest).drop ps.length) = true := by
          simpa using h2
        obtain ⟨ha, hb⟩ :=
          ih (fun y hy => hpat y (by simp [hy])) fuel (isWordChar c) rest h1.2 h2'
        refine ⟨?_, by simpa using hb⟩
        simp only [lowerL, List.map_cons, isPre, Bool.and_eq_true,
          decide_eq_true_eq]
        exact ⟨h1.1, ha⟩

/-- The Excel pronunciation fix preserves the absence of raw URLs. -/
theorem noBad_excelGo : ∀ (fuel : Nat) (wb : Bool) (m : List Char),
    noBad m = true → noBad (excelGo fuel wb m) = true := by
  have hs : lowerL "https://".data = 'h' :: "ttps://".data := by decide
  have ht : lowerL "http://".data = 'h' :: "ttp://".data := by decide
  intro fuel
  induction fuel with
  | zero => intro wb m _; cases m <;> rfl
  | succ fuel ih =>
    intro wb m hm
    cases m with
    | nil => rfl
    | cons c rest =>
      simp only [excelGo]
      have hrest : noBad rest = true := noBad_tail _ _ hm
      by_cases hcond : (!wb && isPreCI "excel".data (c :: rest) &&
          !isWordCharO (((c :: rest).drop 5).head?)) = true
      · rw [if_pos hcond]
        refine noBad_append_no_h _ _ (by decide) ?_
        exact ih true _ (noBad_drop _ _ hrest)
      · rw [if_neg hcond]
        simp only [noBad, Bool.and_eq_true, Bool.not_eq_true']
        refine ⟨?_, ih (isWordChar c) rest hrest⟩
        by_contra hbad
        have hb : badAt (c :: excelGo fuel (isWordChar c) rest) = true :=
          Bool.not_eq_false _ ▸ (Bool.of_not_eq_false hbad)
        simp only [badAt, Bool.or_eq_true, Bool.and_eq_true] at hb
        have hmhead : badAt (c :: rest) = false := by
          have := hm
          simp only [noBad, Bool.and_eq_true, Bool.not_eq_true'] at this
          exact this.1
        rcases hb with ⟨h1, h2⟩ | ⟨h1, h2⟩
        · simp only [isPreCI] at h1
          rw [hs] at h1
          simp only [lowerL, List.map_cons, isPre, Bool.and_eq_true,
            decide_eq_true_eq] at h1
          obtain ⟨hc, hpre⟩ := h1
          have h2' : nonWsHead ((excelGo fuel (isWordChar c) rest).drop 7) = true := by
            simpa using h2
          obtain ⟨ha, hb'⟩ := excel_copyback "ttps://".data (by decide) fuel
            (isWordChar c) rest (by simpa [lowerL] using hpre)
            (by rw [show ("ttps://".data).length = 7 from by decide]; exact h2')
          have hb7 : nonWsHead (rest.drop 7) = true := by
            rw [show ("ttps://".data).length = 7 from by decide] at hb'
            exact hb'
          have : badAt (c :: rest) = true := by
            simp only [badAt, Bool.or_eq_true, Bool.and_eq_true]
            refine Or.inl ⟨?_, by simpa using hb7⟩
            simp only [isPreCI]
            rw [hs]
            simp only [lowerL, List.map_cons, isPre, Bool.and_eq_true,
              decide_eq_true_eq]
            exact ⟨hc, by simpa [lowerL] using ha⟩
          rw [this] at hmhead; exact absurd hmhead (by simp)
        · simp only [isPreCI] at h1
          rw [ht] at h1
          simp only [lowerL, List.map_cons, isPre, Bool.and_eq_true,
            decide_eq_true_eq] at h1
          obtain ⟨hc, hpre⟩ := h1
          have h2' : nonWsHead ((excelGo fuel (isWordChar c) rest).drop 6) = true := by
            simpa using h2
          obtain ⟨ha, hb'⟩ := excel_copyback "ttp://".data (by decide) fuel
            (isWordChar c) rest (by simpa [lowerL] using hpre)
            (by rw [show ("ttp://".data).length = 6 from by decide]; exact h2')
          have hb6 : nonWsHead (rest.drop 6) = true := by
            rw [show ("ttp://".data).length = 6 from by decide] at hb'
            exact hb'
          have : badAt (c :: rest) = true := by
            simp only [badAt, Bool.or_eq_true, Bool.and_eq_true]
            refine Or.inr ⟨?_, by simpa using hb6⟩
            simp only [isPreCI]
            rw [ht]
            simp only [lowerL, List.map_cons, isPre, Bool.and_eq_true,
              decide_eq_true_eq]
            exact ⟨hc, by simpa [lowerL] using ha⟩
          rw [this] at hmhead; exact absurd hmhead (by simp)

end Praxis

namespace Praxis

/-- Copy-back through the `{2,}`-run collapser: a non-whitespace prefix
followed by a non-whitespace character in the output comes from the head
of the input (every replacement emits a space). -/
theorem run2ws_copyback (patLow : List Char)
    (hpat : ∀ x ∈ patLow, isJsWs x = false) :
    ∀ (fuel : Nat) (m : List Char),
    isPre patLow (lowerL (run2Go isJsWs fuel m)) = true →
    nonWsHead ((run2Go isJsWs fuel m).drop patLow.length) = true →
    isPre patLow (lowerL m) = true ∧ nonWsHead (m.drop patLow.length) = true := by
  induction patLow with
  | nil =>
    intro fuel m _ h2
    refine ⟨rfl, ?_⟩
    match fuel, m with
    | 0, _ => simp [run2Go, nonWsHead] at h2
    | _ + 1, [] => simp [run2Go, nonWsHead] at h2
    | fuel + 1, c :: rest =>
      simp only [run2Go] at h2
      by_cases hcond : (isJsWs c &&
          (match rest.head? with | some d => isJsWs d | none => false)) = true
      · rw [if_pos hcond] at h2
        simp [nonWsHead, isJsWs] at h2
      · rw [if_neg hcond] at h2
        simpa [nonWsHead] using h2
  | cons x ps ih =>
    intro fuel m h1 h2
    match fuel, m with
    | 0, _ => simp [run2Go, isPre] at h1
    | _ + 1, [] => simp [run2Go, isPre, lowerL] at h1
    | fuel + 1, c :: rest =>
      simp only [run2Go] at h1 h2
      by_cases hcond : (isJsWs c &&
          (match rest.head? with | some d => isJsWs d | none => false)) = true
      · rw [if_pos hcond] at h1
        simp only [lowerL, List.map_cons, isPre, Bool.and_eq_true,
          decide_eq_true_eq] at h1
        have : isJsWs x = true := by rw [h1.1]; decide
        rw [hpat x (by simp)] at this
        exact absurd this (by simp)
      · rw [if_neg hcond] at h1 h2
        simp only [lowerL, List.map_cons, isPre, Bool.and_eq_true,
          decide_eq_true_eq] at h1
        have h2' : nonWsHead ((run2Go isJsWs fuel rest).drop ps.length) = true := by
          simpa using h2
        obtain ⟨ha, hb⟩ := ih (fun y hy => hpat y (by simp [hy])) fuel rest h1.2 h2'
        refine ⟨?_, by simpa using hb⟩
        simp only [lowerL, List.map_cons, isPre, Bool.and_eq_true,
          decide_eq_true_eq]
        exact ⟨h1.1, ha⟩

/-- Whitespace collapsing preserves the absence of raw URLs. -/
theorem noBad_run2ws : ∀ (fuel : Nat) (m : List Char),
    noBad m = true → noBad (run2Go isJsWs fuel m) = true := by
  have hs : lowerL "https://".data = 'h' :: "ttps://".data := by decide
  have ht : lowerL "http://".data = 'h' :: "ttp://".data := by decide
  intro fuel
  induction fuel with
  | zero => intro m _; cases m <;> rfl
  | succ fuel ih =>
    intro m hm
    cases m with
    | nil => rfl
    | cons c rest =>
      simp only [run2Go]
      have hrest : noBad rest = true := noBad_tail _ _ hm
      by_cases hcond : (isJsWs c &&
          (match rest.head? with | some d => isJsWs d | none => false)) = true
      · rw [if_pos hcond]
        simp only [noBad, Bool.and_eq_true, Bool.not_eq_true']
        refine ⟨badAt_cons_not_h _ _ (by decide), ?_⟩
        exact ih _ (noBad_suffix (List.dropWhile_suffix _) hrest)
      · rw [if_neg hcond]
        simp only [noBad, Bool.and_eq_true, Bool.not_eq_true']
        refine ⟨?_, ih rest hrest⟩
        by_contra hbad
        have hb : badAt (c :: run2Go isJsWs fuel rest) = true :=
          Bool.not_eq_false _ ▸ (Bool.of_not_eq_false hbad)
        simp only [badAt, Bool.or_eq_true, Bool.and_eq_true] at hb
        have hmhead : badAt (c :: rest) = false := by
          have := hm
          simp only [noBad, Bool.and_eq_true, Bool.not_eq_true'] at this
          exact this.1
        rcases hb with ⟨h1, h2⟩ | ⟨h1, h2⟩
        · simp only [isPreCI] at h1
          rw [hs] at h1
          simp only [lowerL, List.map_cons, isPre, Bool.and_eq_true,
            decide_eq_true_eq] at h1
          obtain ⟨hc, hpre⟩ := h1
          have h2' : nonWsHead ((run2Go isJsWs fuel rest).drop 7) = true := by
            simpa using h2
          obtain ⟨ha, hb'⟩ := run2ws_copyback "ttps://".data (by decide) fuel rest
            (by simpa [lowerL] using hpre)
            (by rw [show ("ttps://".data).length = 7 from by decide]; exact h2')
          have hb7 : nonWsHead (rest.drop 7) = true := by
            rw [show ("ttps://".data).length = 7 from by decide] at hb'
            exact hb'
          have : badAt (c :: rest) = true := by
            simp only [badAt, Bool.or_eq_true, Bool.and_eq_true]
            refine Or.inl ⟨?_, by simpa using hb7⟩
            simp only [isPreCI]
            rw [hs]
            simp only [lowerL, List.map_cons, isPre, Bool.and_eq_true,
              decide_eq_true_eq]
            exact ⟨hc, by simpa [lowerL] using ha⟩
          rw [this] at hmhead; exact absurd hmhead (by simp)
        · simp only [isPreCI] at h1
          rw [ht] at h1
          simp only [lowerL, List.map_cons, isPre, Bool.and_eq_true,
            decide_eq_true_eq] at h1
          obtain ⟨hc, hpre⟩ := h1
          have h2' : nonWsHead ((run2Go isJsWs fuel rest).drop 6) = true := by
            simpa using h2
          obtain ⟨ha, hb'⟩ := run2ws_copyback "ttp://".data (by decide) fuel rest
            (by simpa [lowerL] using hpre)
            (by rw [show ("ttp://".data).length = 6 from by decide]; exact h2')
          have hb6 : nonWsHead (rest.drop 6) = true := by
            rw [show ("ttp://".data).length = 6 from by decide] at hb'
            exact hb'
          have : badAt (c :: rest) = true := by
            simp only [badAt, Bool.or_eq_true, Bool.and_eq_true]
            refine Or.inr ⟨?_, by simpa using hb6⟩
            simp only [isPreCI]
            rw [ht]
            simp only [lowerL, List.map_cons, isPre, Bool.and_eq_true,
              decide_eq_true_eq]
            exact ⟨hc, by simpa [lowerL] using ha⟩
          rw [this] at hmhead; exact absurd hmhead (by simp)

end Praxis

namespace Praxis

/-! ### Character-membership lemmas for the server sanitiser (C9) -/

theorem mem_of_mem_dropWhile {p : Char → Bool} {c : Char} :
    ∀ {l : List Char}, c ∈ l.dropWhile p → c ∈ l := by
  intro l h
  exact (List.dropWhile_sublist _).subset h

theorem mem_of_mem_drop {c : Char} {l : List Char} {n : Nat}
    (h : c ∈ l.drop n) : c ∈ l :=
  (List.drop_subset _ _) h

theorem mem_runReplaceGo {P : Char → Bool} {c : Char} :
    ∀ (fuel : Nat) (l : List Char), c ∈ runReplaceGo P fuel l →
    c = ' ' ∨ (c ∈ l ∧ P c = false) := by
  intro fuel
  induction fuel with
  | zero => intro l h; simp [runReplaceGo] at h
  | succ fuel ih =>
    intro l h
    cases l with
    | nil => simp [runReplaceGo] at h
    | cons a rest =>
      simp only [runReplaceGo] at h
      by_cases ha : P a = true
      · rw [if_pos ha] at h
        rcases List.mem_cons.mp h with h | h
        · exact Or.inl h
        · rcases ih _ h with h | ⟨h1, h2⟩
          · exact Or.inl h
          · exact Or.inr ⟨List.mem_cons_of_mem _ (mem_of_mem_dropWhile h1), h2⟩
      · rw [if_neg ha] at h
        rcases List.mem_cons.mp h with h | h
        · exact Or.inr ⟨by simp [h], by subst h; simpa using ha⟩
        · rcases ih _ h with h | ⟨h1, h2⟩
          · exact Or.inl h
          · exact Or.inr ⟨List.mem_cons_of_mem _ h1, h2⟩

theorem mem_run2Go {P : Char → Bool} {c : Char} :
    ∀ (fuel : Nat) (l : List Char), c ∈ run2Go P fuel l →
    c = ' ' ∨ c ∈ l := by
  intro fuel
  induction fuel with
  | zero => intro l h; simp [run2Go] at h
  | succ fuel ih =>
    intro l h
    cases l with
    | nil => simp [run2Go] at h
    | cons a rest =>
      simp only [run2Go] at h
      by_cases ha : (P a && (match rest.head? with
          | some d => P d | none => false)) = true
      · rw [if_pos ha] at h
        rcases List.mem_cons.mp h with h | h
        · exact Or.inl h
        · rcases ih _ h with h | h
          · exact Or.inl h
          · exact Or.inr (List.mem_cons_of_mem _ (mem_of_mem_dropWhile h))
      · rw [if_neg ha] at h
        rcases List.mem_cons.mp h with h | h
        · exact Or.inr (by simp [h])
        · rcases ih _ h with h | h
          · exact Or.inl h
          · exact Or.inr (List.mem_cons_of_mem _ h)

theorem mem_excelGo {c : Char} :
    ∀ (fuel : Nat) (wb : Bool) (l : List Char), c ∈ excelGo fuel wb l →
    c ∈ "Microsoft Excel".data ∨ c ∈ l := by
  intro fuel
  induction fuel with
  | zero => intro wb l h; simp [excelGo] at h
  | succ fuel ih =>
    intro wb l h
    cases l with
    | nil => simp [excelGo] at h
    | cons a rest =>
      simp only [excelGo] at h
      by_cases hcond : (!wb && isPreCI "excel".data (a :: rest) &&
          !isWordCharO (((a :: rest).drop 5).head?)) = true
      · rw [if_pos hcond] at h
        rcases List.mem_append.mp h with h | h
        · exact Or.inl h
        · rcases ih _ _ h with h | h
          · exact Or.inl h
          · exact Or.inr (List.mem_cons_of_mem _ (mem_of_mem_drop h))
      · rw [if_neg hcond] at h
        rcases List.mem_cons.mp h with h | h
        · exact Or.inr (by simp [h])
        · rcases ih _ _ h with h | h
          · exact Or.inl h
          · exact Or.inr (List.mem_cons_of_mem _ h)

theorem mem_trimL {c : Char} {l : List Char} (h : c ∈ trimL l) : c ∈ l := by
  unfold trimL at h
  rw [List.mem_reverse] at h
  have h1 := mem_of_mem_dropWhile h
  rw [List.mem_reverse] at h1
  exact mem_of_mem_dropWhile h1

theorem mem_of_isPre_lower (pat : List Char) :
    ∀ (l : List Char), isPre pat (lowerL l) = true →
    ∀ x ∈ pat, ∃ c ∈ l, lc c = x := by
  induction pat with
  | nil => intro l _ x hx; simp at hx
  | cons a as ih =>
    intro l h x hx
    cases l with
    | nil => simp [lowerL, isPre] at h
    | cons c rest =>
      simp only [lowerL, List.map_cons, isPre, Bool.and_eq_true,
        decide_eq_true_eq] at h
      rcases List.mem_cons.mp hx with hx | hx
      · exact ⟨c, by simp, by rw [← h.1, hx]⟩
      · obtain ⟨c', hc', hlc⟩ := ih rest h.2 x hx
        exact ⟨c', List.mem_cons_of_mem _ hc', hlc⟩

theorem lc_eq_slash {c : Char} (h : lc c = '/') : c = '/' := by
  unfold lc at h
  by_cases hc : 'A' ≤ c ∧ c ≤ 'Z'
  · rw [if_pos hc] at h
    exfalso
    have hle : 65 ≤ c.toNat ∧ c.toNat ≤ 90 := ⟨hc.1, hc.2⟩
    have hv : Nat.isValidChar (c.toNat + 32) := Or.inl (by omega)
    have ht := char_toNat_ofNat (c.toNat + 32) hv
    rw [h] at ht
    have h47 : ('/' : Char).toNat = 47 := by decide
    rw [h47] at ht
    omega
  · rwa [if_neg hc] at h

theorem slash_of_hasSchemeSub : ∀ (l : List Char),
    hasSchemeSub l = true → '/' ∈ l := by
  intro l
  induction l with
  | nil => intro h; simp [hasSchemeSub] at h
  | cons c rest ih =>
    intro h
    by_cases h1 : isPreCI "http://".data (c :: rest) = true
    · simp only [isPreCI] at h1
      obtain ⟨c', hc', hlc⟩ := mem_of_isPre_lower _ _ h1 '/'
        (by rw [show lowerL "http://".data = "http://".data from by decide]; decide)
      rw [lc_eq_slash hlc] at hc'
      exact hc'
    · by_cases h2 : isPreCI "https://".data (c :: rest) = true
      · simp only [isPreCI] at h2
        obtain ⟨c', hc', hlc⟩ := mem_of_isPre_lower _ _ h2 '/'
          (by rw [show lowerL "https://".data = "https://".data from by decide]; decide)
        rw [lc_eq_slash hlc] at hc'
        exact hc'
      · have hb1 : isPreCI "http://".data (c :: rest) = false := by
          cases hx : isPreCI "http://".data (c :: rest) with
          | true => exact absurd hx h1
          | false => rfl
        have hb2 : isPreCI "https://".data (c :: rest) = false := by
          cases hx : isPreCI "https://".data (c :: rest) with
          | true => exact absurd hx h2
          | false => rfl
        have hr : hasSchemeSub rest = true := by
          simp only [hasSchemeSub, hb1, hb2, Bool.false_or] at h
          exact h
        exact List.mem_cons_of_mem _ (ih hr)

end Praxis

namespace Praxis

/-- Counterexample for C9: the client sanitiser leaves a bare dangling
scheme untouched — `\S+` requires at least one non-space character after
`http://`, so the input `"http://"` survives sanitisation verbatim and the
output contains the forbidden substring. -/
theorem c9_bare_scheme_counterexample :
    VoiceApp.sanitizeForSpeech "http://" = "http://" ∧
    hasSchemeSub "http://".data = true := by
  exact ⟨by decide, by decide⟩

/-- The tail of the server sanitiser (bracket/slash strip onward) leaves
no URL scheme: the bracket pass removes every slash and the remaining
passes introduce none. -/
theorem p6_tail_no_scheme (t9 : List Char) :
    hasSchemeSub (trimL (collapseWs (excelFix (run2Replace Part006.punctChar
      (runReplace Part006.bracketChar t9))))) = false := by
  cases hx : hasSchemeSub (trimL (collapseWs (excelFix (run2Replace Part006.punctChar
      (runReplace Part006.bracketChar t9))))) with
  | false => rfl
  | true =>
    exfalso
    have hmem := slash_of_hasSchemeSub _ hx
    have h2 := mem_trimL hmem
    unfold collapseWs run2Replace at h2
    rcases mem_run2Go _ _ h2 with h | h
    · exact absurd h (by decide)
    unfold excelFix at h
    rcases mem_excelGo _ _ _ h with h | h
    · exact absurd h (by decide)
    rcases mem_run2Go _ _ h with h | h
    · exact absurd h (by decide)
    unfold runReplace at h
    rcases mem_runReplaceGo _ _ h with h | hP
    · exact absurd h (by decide)
    · exact absurd hP.2 (by decide)

/-- The data of a `String.mk` is its argument list. -/
theorem mk_data_eq (l : List Char) : (String.mk l).data = l := rfl

/-- C9 (amended): the client sanitiser's output never contains `http://`
or `https://` (case-insensitively) followed by a non-whitespace character
— every URL with content after its scheme is stripped, and the later
passes cannot recreate one — though a bare dangling scheme may survive
(see the counterexample); the server (part_006) sanitiser's output
contains no `http://` or `https://` substring at all, because its
bracket-and-slash pass removes every slash. -/
theorem c9_sanitized_speech_schemes (s : String) :
    noBad (VoiceApp.sanitizeForSpeech s).data = true ∧
    hasSchemeSub (Part006.sanitizeForSpeech s).data = false := by
  constructor
  · unfold VoiceApp.sanitizeForSpeech
    by_cases hs0 : s = ""
    · rw [if_pos hs0]; rfl
    · rw [if_neg hs0, mk_data_eq]
      apply noBad_trimL
      unfold collapseWs run2Replace
      apply noBad_run2ws
      unfold excelFix
      apply noBad_excelGo
      unfold stripUrls
      apply noBad_stripUrlsGo
  · unfold Part006.sanitizeForSpeech
    by_cases hs0 : s = ""
    · rw [if_pos hs0]; rfl
    · rw [if_neg hs0, mk_data_eq]
      exact p6_tail_no_scheme
        (runReplace Part006.symChar2 (runReplace Part006.symChar1
          (Part006.backtickStrip (Part006.wwwStrip (Part006.domainStrip
            (stripUrls (linksCut (Part006.tagJsonStrip "ARTICLE:".data
              (Part006.tagJsonStrip "VIDEO:".data (Part006.tagJsonStrip "QUIZ:".data
                (Part006.lineFilter s.data)))))))))))

end Praxis
